import Mathlib

/-!
# SnapshotKV: a snapshot-isolated, versioned key-value store

Shallow embedding of `src/LLD/SnapshotKV/snapshotkv-main.cpp` (class `KVSnapshots`).

Modelling conventions

* `int` is modelled by `Int`. Where the result of an `int` operation can leave the 32-bit
  range (the epoch counter `curr_id + 1`, and the times, bounds and counts of `PingWindow`), it
  is brought back into the range by `wrap32` (two's complement wrap-around). Indices into a
  chain are plain integers.
* `unordered_map<string, vector<pair<int, optional<string>>>>` is a function from keys to
  optional chains; `vector` is `List`.
* An operation returns `none` when the C++ code would leave defined behaviour
  (an out-of-bounds `operator[]`, `back()` of an empty vector); otherwise it returns the
  outcome (a value or the thrown exception) together with the state after the call.
-/

namespace SnapshotKV

/-! ## Data model -/

/-- One version of a key: `pair<int, optional<string>>`; an absent value is a tombstone. -/
abbrev Entry := Int × Option String

/-- Version chain of a key: `vector<pair<int, optional<string>>>`. -/
abbrev Chain := List Entry

/-- The exceptions of the store: the two classes it throws itself, with their `what()` message,
and the `std::length_error` of the library, thrown by `vector::resize` on a size above
`max_size()`. -/
inductive Exn where
  | invalid_argument (what : String)
  | runtime_error (what : String)
  | length_error
deriving DecidableEq

deriving instance DecidableEq for Except

/-- The members of `class KVSnapshots`. -/
structure KVSnapshots where
  db : String → Option Chain
  curr_id : Int
  snapshot_alive : List Bool

/-- Outcome of a call: `none` for undefined behaviour, else the result or the thrown exception,
paired with the state after the call. -/
abbrev Res (α : Type) := Option (Except Exn α × KVSnapshots)

/-! ### The exceptions of the source, named after the error kinds of the specification -/

/-- Thrown by `put`, `deleteKey` and `get` on `key.empty()`. -/
def InvalidKey : Exn := .invalid_argument "Key given is empty!"

/-- Thrown by `get` and `deleteSnapshot` when `valid_snapshotID` fails. -/
def SnapshotNotFound : Exn := .invalid_argument "Given snapshot ID is not valid (Doesn't exist)!"

/-- Thrown by `get` when the liveness flag is false. -/
def SnapshotDeleted : Exn := .runtime_error "Snapshot with Given ID was deleted!"

/-- Thrown by `deleteSnapshot` when the liveness flag is false (same exception as in `get`). -/
def SnapshotAlreadyDeleted : Exn := .runtime_error "Snapshot with Given ID was deleted!"

/-- Thrown by `get` when the key is not in `db`. -/
def KeyNotFound : Exn := .invalid_argument "Key given is not in our KV Store!"

/-- Thrown by `deleteKey` when the key is not in `db`. -/
def KeyNotFoundOnDelete : Exn := .invalid_argument "Key given is doesn't exist in our KV Store!"

/-- Thrown by `get` when `find` returns `-1`. -/
def KeyNotFoundAtSnapshot : Exn := .runtime_error "Snapshot ID doesn't exist"

/-- Thrown by `get` when the resolved entry holds no value. -/
def KeyDeletedAtSnapshot : Exn := .runtime_error "Key was deleted in given Snapshot ID!"

/-! ## Primitive accesses -/

/-- The greatest value of an `int`, `2^31 - 1`. -/
def INT_MAX : Int := 2147483647

/-- Two's complement wrap-around of an integer into the range of a 32-bit `int`,
`[-2^31, 2^31 - 1]`. -/
def wrap32 (x : Int) : Int := (x + 2147483648) % 4294967296 - 2147483648

/-- The access `v[i]` with a signed index; `none` outside the bounds. -/
def idx {α : Type} (v : List α) (i : Int) : Option α :=
  if 0 ≤ i then v[i.toNat]? else none

/-- Model of `unordered_map::operator[]`: the chain stored under `key`, after inserting an empty
chain when the key is absent. -/
def db_at (db : String → Option Chain) (key : String) : Chain × (String → Option Chain) :=
  match db key with
  | some arr => (arr, db)
  | none => ([], Function.update db key (some []))

/-- Model of `vector<bool>::resize(n)`: truncate, or pad with `false`. -/
def resize (v : List Bool) (n : Nat) : List Bool :=
  v.take n ++ List.replicate (n - v.length) false

/-! ## Private members -/

/-- `KVSnapshots::add_to_db`: overwrite the tail entry when it carries the current epoch,
append a new entry otherwise. -/
def add_to_db (s : KVSnapshots) (key : String) (value : Option String) : Option KVSnapshots :=
  if (s.db key).isSome then
    -- `db.find(key) != db.end()` holds, so `db[key].back()` is evaluated
    let r := db_at s.db key
    match r.1.getLast? with
    | none => none
    | some last =>
      if s.curr_id = last.1 then
        let r2 := db_at r.2 key
        some { s with db := Function.update r2.2 key (some (r2.1.dropLast ++ [(s.curr_id, value)])) }
      else
        let r3 := db_at r.2 key
        some { s with db := Function.update r3.2 key (some (r3.1 ++ [(s.curr_id, value)])) }
  else
    let r3 := db_at s.db key
    some { s with db := Function.update r3.2 key (some (r3.1 ++ [(s.curr_id, value)])) }

/-- `KVSnapshots::valid_snapshotID`. In the third comparison the id is already known to be
non-negative, so its conversion to `size_t` keeps its value. -/
def valid_snapshotID (s : KVSnapshots) (snapshotID : Int) : Bool :=
  if snapshotID < 0 ∨ snapshotID ≥ s.curr_id ∨ snapshotID ≥ (s.snapshot_alive.length : Int) then
    false
  else
    true

/-- The `while` loop of `KVSnapshots::find`, with the iteration count bounded by `fuel`;
`none` when the fuel runs out or `arr[mid]` is out of bounds. -/
def findLoop (arr : Chain) (id : Int) : Nat → Int → Int → Int → Option Int
  | 0, low, high, ans => if low ≤ high then none else some ans
  | fuel + 1, low, high, ans =>
    if low ≤ high then
      let mid := low + (high - low).tdiv 2
      match idx arr mid with
      | none => none
      | some e =>
        if e.1 ≤ id then findLoop arr id fuel (mid + 1) high mid
        else findLoop arr id fuel low (mid - 1) ans
    else some ans

/-- `KVSnapshots::find`: binary search started on `[0, size-1]` with `ans = -1`. -/
def find (arr : Chain) (id : Int) : Option Int :=
  findLoop arr id arr.length 0 ((arr.length : Int) - 1) (-1)

/-! ## Public members -/

/-- Constructor `KVSnapshots()`: empty database, `curr_id = 0`, empty liveness table. -/
def fresh : KVSnapshots := ⟨fun _ => none, 0, []⟩

/-- `KVSnapshots::put`. -/
def put (s : KVSnapshots) (key : String) (value : Option String) : Res Unit :=
  if key = "" then some (.error InvalidKey, s)
  else
    match add_to_db s key value with
    | none => none
    | some s1 => some (.ok (), s1)

/-- `KVSnapshots::deleteKey`. -/
def deleteKey (s : KVSnapshots) (key : String) : Res Unit :=
  if key = "" then some (.error InvalidKey, s)
  else if (s.db key).isNone then some (.error KeyNotFoundOnDelete, s)
  else
    match add_to_db s key none with
    | none => none
    | some s1 => some (.ok (), s1)

/-- `KVSnapshots::deleteSnapshot`. -/
def deleteSnapshot (s : KVSnapshots) (snapshotID : Int) : Res Unit :=
  if !valid_snapshotID s snapshotID then some (.error SnapshotNotFound, s)
  else
    match idx s.snapshot_alive snapshotID with
    | none => none
    | some alive =>
      if !alive then some (.error SnapshotAlreadyDeleted, s)
      else some (.ok (), { s with snapshot_alive := s.snapshot_alive.set snapshotID.toNat false })

/-- `KVSnapshots::get`. -/
def get (s : KVSnapshots) (key : String) (snapshotID : Int) : Res String :=
  if key = "" then some (.error InvalidKey, s)
  else if !valid_snapshotID s snapshotID then some (.error SnapshotNotFound, s)
  else
    match idx s.snapshot_alive snapshotID with
    | none => none
    | some alive =>
      if !alive then some (.error SnapshotDeleted, s)
      else if (s.db key).isNone then some (.error KeyNotFound, s)
      else
        let r := db_at s.db key
        let s1 : KVSnapshots := { s with db := r.2 }
        match find r.1 snapshotID with
        | none => none
        | some index =>
          if index = -1 then some (.error KeyNotFoundAtSnapshot, s1)
          else
            match idx r.1 index with
            | none => none
            | some e =>
              match e.2 with
              | none => some (.error KeyDeletedAtSnapshot, s1)
              | some v => some (.ok v, s1)

/-- `KVSnapshots::takeSnapshot`. The `int` value `curr_id + 1` is converted to the unsigned
size of `resize`: a negative value, as left by the wrap-around at `curr_id = INT_MAX`, becomes a
size above `max_size()`, on which `resize` throws `std::length_error` before anything is
changed. -/
def takeSnapshot (s : KVSnapshots) : Res Int :=
  let size := wrap32 (s.curr_id + 1)
  if size < 0 then some (.error .length_error, s)
  else
    let v := resize s.snapshot_alive size.toNat
    match idx v s.curr_id with
    | none => none
    | some _ =>
      some (.ok s.curr_id,
        { s with snapshot_alive := v.set s.curr_id.toNat true,
                 curr_id := wrap32 (s.curr_id + 1) })

/-! ## Call sequences -/

/-- One call on the public interface. -/
inductive Op where
  | put (key : String) (value : Option String)
  | deleteKey (key : String)
  | deleteSnapshot (snapshotID : Int)
  | get (key : String) (snapshotID : Int)
  | takeSnapshot
deriving DecidableEq

/-- Value returned by a call: nothing, a string (`get`) or an id (`takeSnapshot`). -/
inductive Ret where
  | unit
  | str (v : String)
  | int (i : Int)
deriving DecidableEq

/-- Outcome of one call and the state after it. -/
def call (s : KVSnapshots) : Op → Res Ret
  | .put k v => (put s k v).map fun p => (p.1.map fun _ => Ret.unit, p.2)
  | .deleteKey k => (deleteKey s k).map fun p => (p.1.map fun _ => Ret.unit, p.2)
  | .deleteSnapshot i => (deleteSnapshot s i).map fun p => (p.1.map fun _ => Ret.unit, p.2)
  | .get k i => (get s k i).map fun p => (p.1.map Ret.str, p.2)
  | .takeSnapshot => (takeSnapshot s).map fun p => (p.1.map Ret.int, p.2)

/-- State after one call (the caller catches a thrown exception and goes on). -/
def step (s : KVSnapshots) (op : Op) : Option KVSnapshots :=
  (call s op).map Prod.snd

/-- State after a sequence of calls started in `s`. -/
def runFrom (s : KVSnapshots) : List Op → Option KVSnapshots
  | [] => some s
  | op :: ops => (step s op).bind fun s1 => runFrom s1 ops

/-- State after a sequence of calls on a fresh store. -/
def run (ops : List Op) : Option KVSnapshots := runFrom fresh ops

/-- Outcome of `get` alone, without the state. -/
def getResult (s : KVSnapshots) (key : String) (snapshotID : Int) : Option (Except Exn String) :=
  (get s key snapshotID).map Prod.fst

/-! ## Notions used to state the properties -/

/-- A chain is ascending when its epochs strictly increase from head to tail. -/
def Ascending (arr : Chain) : Prop := arr.Pairwise fun a b => a.1 < b.1

/-- Entry of the chain visible at `id`: the last entry whose epoch is `≤ id`, by a linear scan. -/
def visible (arr : Chain) (id : Int) : Option Entry :=
  (arr.filter fun e => decide (e.1 ≤ id)).getLast?

/-- The liveness flag of a snapshot id is set. -/
def live (s : KVSnapshots) (id : Int) : Prop := idx s.snapshot_alive id = some true

instance (s : KVSnapshots) (id : Int) : Decidable (live s id) := by
  unfold live; infer_instance

/-- Outcome of a read that passed the key and snapshot checks, from the visible entry. -/
def readChain (chain : Option Chain) (id : Int) : Except Exn String :=
  match chain with
  | none => .error KeyNotFound
  | some arr =>
    match visible arr id with
    | none => .error KeyNotFoundAtSnapshot
    | some (_, none) => .error KeyDeletedAtSnapshot
    | some (_, some v) => .ok v

/-- Entry of key `k` visible at snapshot `S` in state `s`, if any. -/
def view (s : KVSnapshots) (k : String) (S : Int) : Option Entry :=
  (s.db k).bind fun arr => visible arr S

/-- Chain left under a key by a write of `value` at `epoch`: the tail entry is overwritten when
it carries `epoch`, a new entry is appended otherwise. -/
def writeChain (chain : Option Chain) (epoch : Int) (value : Option String) : Chain :=
  match chain with
  | none => [(epoch, value)]
  | some arr =>
    if arr.getLast?.map Prod.fst = some epoch then arr.dropLast ++ [(epoch, value)]
    else arr ++ [(epoch, value)]

/-- State after a write of `value` under `key` at the current epoch. -/
def written (s : KVSnapshots) (key : String) (value : Option String) : KVSnapshots :=
  { s with db := Function.update s.db key (some (writeChain (s.db key) s.curr_id value)) }

/-- State after a successful `deleteSnapshot`. -/
def unalive (s : KVSnapshots) (id : Int) : KVSnapshots :=
  { s with snapshot_alive := s.snapshot_alive.set id.toNat false }

/-- State after a successful `takeSnapshot`. -/
def snapped (s : KVSnapshots) : KVSnapshots :=
  { s with snapshot_alive := s.snapshot_alive ++ [true], curr_id := s.curr_id + 1 }

/-- What every state reached from a fresh store satisfies. -/
structure Inv (s : KVSnapshots) : Prop where
  curr_nonneg : 0 ≤ s.curr_id
  curr_max : s.curr_id ≤ INT_MAX
  alive_len : (s.snapshot_alive.length : Int) = s.curr_id
  chain_ne : ∀ k arr, s.db k = some arr → arr ≠ []
  chain_asc : ∀ k arr, s.db k = some arr → Ascending arr
  chain_le : ∀ k arr, s.db k = some arr → ∀ e ∈ arr, e.1 ≤ s.curr_id

/-- The entries of a chain with an epoch below `E`. -/
def below (arr : Chain) (E : Int) : Chain := arr.filter fun e => decide (e.1 < E)

/-- The entries of a chain with epoch `E`. -/
def atEpoch (arr : Chain) (E : Int) : Chain := arr.filter fun e => decide (e.1 = E)

/-- The chain stored under a key, empty when the key is absent. -/
def chainOf (s : KVSnapshots) (k : String) : Chain := (s.db k).getD []

/-! ## Reading a call sequence -/

/-- The call is a `put` or a `deleteKey` on key `k`. -/
def Op.writes (k : String) : Op → Bool
  | .put k1 _ => decide (k1 = k)
  | .deleteKey k1 => decide (k1 = k)
  | _ => false

/-- The value a write call stores: the argument of a `put`, nothing for a `deleteKey`. -/
def Op.value : Op → Option String
  | .put _ v => v
  | _ => none

/-- The call is a `put` or a `deleteKey`. -/
def Op.isWrite : Op → Bool
  | .put _ _ => true
  | .deleteKey _ => true
  | _ => false

/-- Last successful write to `k` among the calls made before the `takeSnapshot` call that
returned `S`, when the calls `ops` are made from state `s` and `acc` is the last successful write
to `k` made earlier. It is `none` when there is no such write, or no such `takeSnapshot` call. -/
def lastWrite (k : String) (S : Int) : KVSnapshots → Option Op → List Op → Option Op
  | _, _, [] => none
  | s, acc, op :: ops =>
    match call s op with
    | none => none
    | some (.error _, s1) => lastWrite k S s1 acc ops
    | some (.ok r, s1) =>
      if op = .takeSnapshot ∧ r = .int S then acc
      else if op.writes k then lastWrite k S s1 (some op) ops
      else lastWrite k S s1 acc ops

/-- Some call of the sequence `ops`, made from state `s`, is a successful write (`put` or
`deleteKey`) to key `k`. -/
def writtenBy (k : String) : KVSnapshots → List Op → Bool
  | _, [] => false
  | s, op :: ops =>
    match call s op with
    | none => false
    | some (r, s1) => (op.writes k && r.isOk) || writtenBy k s1 ops

/-- Outcomes of the calls of a sequence made from state `s`, in order. -/
def outcomes (s : KVSnapshots) : List Op → Option (List (Except Exn Ret))
  | [] => some []
  | op :: ops =>
    match call s op with
    | none => none
    | some (r, s1) => (outcomes s1 ops).map fun rs => r :: rs

/-- The calls `put(k,v1), ..., put(k,vn)`. -/
def putAll (k : String) (vs : List (Option String)) : List Op := vs.map (Op.put k)

/-- The state a successful call leaves, `fresh` if the call is not defined. -/
def stateOf {α : Type} (r : Res α) : KVSnapshots := (r.map Prod.snd).getD fresh

/-! ## Concrete call sequences and states -/

/-- The calls of `main`, in order, with the ids held by its variables `snapshot2 = 2` and
`snapshot3 = 3`. -/
def mainCalls : List Op :=
  [ .put "a" (some "apple"), .takeSnapshot,
    .put "a" (some "ant"), .put "b" (some "ball"), .put "d" (some "doll"), .takeSnapshot,
    .get "a" 1,
    .put "a" (some "artistic"), .put "b" (some "ballistic"), .takeSnapshot,
    .get "a" 2, .get "b" 2,
    .deleteKey "a", .deleteKey "b", .takeSnapshot,
    .get "a" 3,
    .deleteSnapshot 2,
    .get "a" 2 ]

/-- State after the calls of `main`. -/
def mainState : KVSnapshots := (run mainCalls).getD fresh

/-- State of `main` before its first `deleteKey`: the first twelve calls have been made. -/
def mainBeforeDeleteKey : KVSnapshots := (run (mainCalls.take 12)).getD fresh

/-- State of `main` before its `deleteSnapshot(2)`: the first sixteen calls have been made. -/
def mainBeforeDeleteSnapshot : KVSnapshots := (run (mainCalls.take 16)).getD fresh

/-- State of `main` after its `deleteSnapshot(2)`. -/
def mainAfterDeleteSnapshot : KVSnapshots := stateOf (deleteSnapshot mainBeforeDeleteSnapshot 2)

/-- The call sequence of `2^31 - 1 = INT_MAX` calls of `takeSnapshot`. -/
def manySnapshots : List Op := List.replicate 2147483647 .takeSnapshot

/-- A short call sequence in which a `put` stores an absent value. -/
def absentPutCalls : List Op := [.put "a" none, .takeSnapshot]

/-- State after `absentPutCalls`. -/
def absentPutState : KVSnapshots := (run absentPutCalls).getD fresh

/-- State after a single `takeSnapshot` on a fresh store: snapshot 0 is live, no key is written. -/
def oneSnapState : KVSnapshots := (run [.takeSnapshot]).getD fresh

/-- State after `takeSnapshot(); put("a", "x")` on a fresh store. -/
def oneSnapPutState : KVSnapshots := (runFrom oneSnapState [.put "a" (some "x")]).getD fresh

/-- State after `put("a", "x")` on a fresh store. -/
def putState : KVSnapshots := (run [.put "a" (some "x")]).getD fresh

/-- State after `put("a", "x"); deleteKey("a"); takeSnapshot(); put("a", "y")` on a fresh store:
snapshot 0 shows `a` deleted, the current epoch is 1. -/
def reputState : KVSnapshots :=
  (run [.put "a" (some "x"), .deleteKey "a", .takeSnapshot, .put "a" (some "y")]).getD fresh

end SnapshotKV

/-!
# PingWindow: a sliding-window staleness tracker

Shallow embedding of `src/LLD/PingWindow/pingwindow-main.cpp` (class `PingWindow`), with the
same conventions as above: `int` is `Int` with every sum and difference wrapped by `wrap32`,
`vector` is `List`, `unordered_map<int,int>` is a function to optional counts, `set<int>` is an
ascending list without duplicates, and an operation returns `none` where the C++ code would
leave defined behaviour or would not return; the constructor returns `none` where it would
throw.
-/

namespace Ping

open SnapshotKV (idx wrap32 INT_MAX)

/-- The members of `class PingWindow`. -/
structure PingWindow where
  lastTime : Int
  K : Int
  n : Int
  buckets : List (List Int)
  count_map : Int → Option Int
  stale : List Int

/-- Value of `count_map[k]`: the stored count, or the value-initialised `0` of a fresh key. -/
def cmGet (m : Int → Option Int) (k : Int) : Int := (m k).getD 0

/-- Assignment `count_map[k] = v`. -/
def cmSet (m : Int → Option Int) (k v : Int) : Int → Option Int := Function.update m k (some v)

/-- `set<int>::insert`: no effect on a member, ordered insertion otherwise. -/
def setInsert (x : Int) (st : List Int) : List Int :=
  if x ∈ st then st else st.orderedInsert (fun a b => a ≤ b) x

/-- `set<int>::erase`. -/
def setErase (x : Int) (st : List Int) : List Int := st.filter fun y => decide (y ≠ x)

/-- The loop `for (i = 0; i < n; i++) { count_map[i] = 0; stale.insert(i); }`, from index `i`
with `m` iterations left. -/
def resetNodes (p : PingWindow) (i : Int) : Nat → PingWindow
  | 0 => p
  | m + 1 =>
    resetNodes { p with count_map := cmSet p.count_map i 0, stale := setInsert i p.stale }
      (i + 1) m

/-- The loop `for (i = 0; i <= K; i++) buckets[i].clear();` on the first `m` buckets. -/
def clearFirst : Nat → List (List Int) → List (List Int)
  | 0, bs => bs
  | _ + 1, [] => []
  | m + 1, _ :: bs => [] :: clearFirst m bs

/-- The loop over `buckets[index]` in `expireUpto`: decrement the count of each node, and mark
the node stale when its count reaches zero. -/
def evict (p : PingWindow) : List Int → PingWindow
  | [] => p
  | node :: rest =>
    let c := wrap32 (cmGet p.count_map node - 1)
    let p1 : PingWindow := { p with count_map := cmSet p.count_map node c }
    let p2 : PingWindow := if c = 0 then { p1 with stale := setInsert node p1.stale } else p1
    evict p2 rest

/-- The body of the `for (x = lastTime+1; x <= curr_time; x++)` loop of `expireUpto`. -/
def expireTick (p : PingWindow) (x : Int) : Option PingWindow :=
  let expireTime := wrap32 (x - p.K)
  if expireTime ≥ 0 then
    if wrap32 (p.K + 1) = 0 then none
    else
      let index := expireTime.tmod (wrap32 (p.K + 1))
      match idx p.buckets index with
      | none => none
      | some b =>
        let p1 := evict p b
        some { p1 with buckets := p1.buckets.set index.toNat [] }
  else some p

/-- The `for (x = lastTime+1; x <= curr_time; x++)` loop, at `x`, with the iteration count
bounded by `fuel`; `none` when the fuel runs out, which happens when `x++` wraps around at
`curr_time = INT_MAX` and the loop does not end. -/
def expireLoop (curr_time : Int) : Nat → PingWindow → Int → Option PingWindow
  | 0, p, x => if x ≤ curr_time then none else some p
  | fuel + 1, p, x =>
    if x ≤ curr_time then
      (expireTick p x).bind fun p1 => expireLoop curr_time fuel p1 (wrap32 (x + 1))
    else some p

/-- `PingWindow::expireUpto`. In the clearing loop `for (i = 0; i <= K; i++)` the access
`buckets[i]` must stay in bounds, and with `K = INT_MAX` the loop would not end. The fuel of the
expiry loop is its iteration count when `x++` does not wrap around. -/
def expireUpto (p : PingWindow) (curr_time : Int) : Option PingWindow :=
  if curr_time > wrap32 (p.lastTime + p.K) then
    if p.K ≥ INT_MAX ∨ (p.buckets.length : Int) < p.K + 1 then none
    else
      let p1 : PingWindow := { p with buckets := clearFirst (p.K + 1).toNat p.buckets }
      let p2 := resetNodes p1 0 p1.n.toNat
      some { p2 with lastTime := curr_time }
  else
    let x0 := wrap32 (p.lastTime + 1)
    (expireLoop curr_time (curr_time - x0 + 1).toNat p x0).map fun p1 =>
      { p1 with lastTime := curr_time }

/-- Constructor `PingWindow(num_nodes, k)`; `none` when no object is constructed: a negative
`int` value of `K + 1`, as left by the wrap-around at `K = INT_MAX`, is converted to a size above
`max_size()` and `resize` throws. -/
def new (num_nodes k : Int) : Option PingWindow :=
  let size := wrap32 (k + 1)
  if size < 0 then none
  else
    some (resetNodes
      { lastTime := -1, K := k, n := num_nodes, buckets := List.replicate size.toNat [],
        count_map := fun _ => none, stale := [] } 0 num_nodes.toNat)

/-- `PingWindow::ingest` (its printed line is the pair of its arguments after clamping). -/
def ingest (p : PingWindow) (time node : Int) : Option PingWindow :=
  let time := if time < p.lastTime then p.lastTime else time
  match expireUpto p time with
  | none => none
  | some p1 =>
    if wrap32 (p1.K + 1) = 0 then none
    else
      let index := time.tmod (wrap32 (p1.K + 1))
      match idx p1.buckets index with
      | none => none
      | some b =>
        let p2 : PingWindow := { p1 with buckets := p1.buckets.set index.toNat (b ++ [node]) }
        let p3 : PingWindow :=
          if cmGet p2.count_map node = 0 then { p2 with stale := setErase node p2.stale } else p2
        some { p3 with
          count_map := cmSet p3.count_map node (wrap32 (cmGet p3.count_map node + 1)) }

/-- `PingWindow::query`: the printed stale nodes, in the iteration order of the set, and the
state after the call. -/
def query (p : PingWindow) (time : Int) : Option (List Int × PingWindow) :=
  (expireUpto p time).map fun p1 => (p1.stale, p1)

/-- One call on the public interface. -/
inductive Call where
  | ingest (time node : Int)
  | query (time : Int)
deriving DecidableEq

/-- The time argument of a call. -/
def Call.time : Call → Int
  | .ingest t _ => t
  | .query t => t

/-- State after one call. -/
def stepCall (p : PingWindow) : Call → Option PingWindow
  | .ingest t v => ingest p t v
  | .query t => (query p t).map Prod.snd

/-- State after a sequence of calls started in `p`. -/
def runFrom (p : PingWindow) : List Call → Option PingWindow
  | [] => some p
  | c :: cs => (stepCall p c).bind fun p1 => runFrom p1 cs

/-- State after a sequence of calls on `PingWindow(n, K)`. -/
def run (n K : Int) (cs : List Call) : Option PingWindow :=
  (new n K).bind fun p => runFrom p cs

/-- The `lastTime` field after each call of a sequence started in `p`, in order. -/
def lastTimes (p : PingWindow) : List Call → Option (List Int)
  | [] => some []
  | c :: cs =>
    match stepCall p c with
    | none => none
    | some p1 => (lastTimes p1 cs).map fun ts => p1.lastTime :: ts

/-! ## Notions used to state the properties -/

end Ping

/-! # Theorems -/

namespace SnapshotKV

/-! ## Lemmas on the primitives -/

theorem add_to_db_eq (s : KVSnapshots) (key : String) (value : Option String) :
    add_to_db s key value =
      match s.db key with
      | none => some { s with db := Function.update s.db key (some [(s.curr_id, value)]) }
      | some arr =>
        match arr.getLast? with
        | none => none
        | some last =>
          if s.curr_id = last.1 then
            some { s with db := Function.update s.db key (some (arr.dropLast ++ [(s.curr_id, value)])) }
          else
            some { s with db := Function.update s.db key (some (arr ++ [(s.curr_id, value)])) } := by
  unfold add_to_db db_at
  cases h : s.db key with
  | none => simp [h]
  | some arr =>
    simp only [h, Option.isSome_some, if_true]

theorem idx_eq_some {α : Type} {v : List α} {i : Int} {a : α} (h : idx v i = some a) :
    0 ≤ i ∧ v[i.toNat]? = some a := by
  unfold idx at h
  split at h
  · exact ⟨by assumption, h⟩
  · cases h

theorem idx_of_lt {α : Type} (v : List α) (i : Int) (h0 : 0 ≤ i) (h1 : i < v.length) :
    ∃ a, idx v i = some a ∧ v[i.toNat]? = some a := by
  have hlt : i.toNat < v.length := by omega
  refine ⟨v[i.toNat], ?_, ?_⟩
  · simp [idx, h0, List.getElem?_eq_getElem hlt]
  · exact List.getElem?_eq_getElem hlt

theorem Ascending.lt_of_lt {arr : Chain} (h : Ascending arr) {i j : Nat} {a b : Entry}
    (hij : i < j) (ha : arr[i]? = some a) (hb : arr[j]? = some b) : a.1 < b.1 := by
  obtain ⟨hi, rfl⟩ := List.getElem?_eq_some.1 ha
  obtain ⟨hj, rfl⟩ := List.getElem?_eq_some.1 hb
  exact List.pairwise_iff_getElem.1 h i j hi hj hij

/-- The loop of `find` ends within its fuel and returns the boundary between the entries with
epoch `≤ id` and those with epoch `> id`. -/
theorem findLoop_spec (arr : Chain) (id : Int) (hs : Ascending arr) :
    ∀ (fuel : Nat) (low high ans : Int), 0 ≤ low → high < arr.length → low ≤ high + 1 →
      (high - low + 1).toNat ≤ fuel →
      (∀ (i : Nat) (e : Entry), (i : Int) < low → arr[i]? = some e → e.1 ≤ id) →
      (∀ (i : Nat) (e : Entry), high < (i : Int) → arr[i]? = some e → id < e.1) →
      ans = low - 1 →
      ∃ r, findLoop arr id fuel low high ans = some r ∧ -1 ≤ r ∧ r < arr.length ∧
        (∀ (i : Nat) (e : Entry), (i : Int) ≤ r → arr[i]? = some e → e.1 ≤ id) ∧
        (∀ (i : Nat) (e : Entry), r < (i : Int) → arr[i]? = some e → id < e.1) := by
  intro fuel
  induction fuel with
  | zero =>
    intro low high ans h0 hh hle hf hlo hhi hans
    have : ¬ low ≤ high := by omega
    refine ⟨ans, by simp [findLoop, this], by omega, by omega, ?_, ?_⟩
    · intro i e hi; exact hlo i e (by omega)
    · intro i e hi; exact hhi i e (by omega)
  | succ fuel ih =>
    intro low high ans h0 hh hle hf hlo hhi hans
    by_cases hg : low ≤ high
    · have hdiv : (high - low).tdiv 2 = (high - low) / 2 :=
        Int.tdiv_eq_ediv (by omega) (by decide)
      have hm0 : 0 ≤ low + (high - low) / 2 := by omega
      have hm1 : low + (high - low) / 2 < arr.length := by omega
      obtain ⟨e, he, he2⟩ := idx_of_lt arr _ hm0 hm1
      simp only [findLoop, hg, if_true, hdiv, he]
      by_cases hc : e.1 ≤ id
      · simp only [hc, if_true]
        apply ih _ _ _ (by omega) hh (by omega) (by omega) _ hhi (by omega)
        intro i e2 hi he3
        by_cases heq : i = (low + (high - low) / 2).toNat
        · subst heq; rw [he2] at he3; cases he3; exact hc
        · have : e2.1 < e.1 := hs.lt_of_lt (by omega) he3 he2
          omega
      · simp only [hc, if_false]
        apply ih _ _ _ h0 (by omega) (by omega) (by omega) hlo _ hans
        intro i e2 hi he3
        by_cases heq : i = (low + (high - low) / 2).toNat
        · subst heq; rw [he2] at he3; cases he3; omega
        · have : e.1 < e2.1 := hs.lt_of_lt (by omega) he2 he3
          omega
    · refine ⟨ans, by simp [findLoop, hg], by omega, by omega, ?_, ?_⟩
      · intro i e hi; exact hlo i e (by omega)
      · intro i e hi; exact hhi i e (by omega)

/-- `find` on an ascending chain ends and returns the boundary index. -/
theorem find_spec (arr : Chain) (id : Int) (hs : Ascending arr) :
    ∃ r, find arr id = some r ∧ -1 ≤ r ∧ r < arr.length ∧
      (∀ (i : Nat) (e : Entry), (i : Int) ≤ r → arr[i]? = some e → e.1 ≤ id) ∧
      (∀ (i : Nat) (e : Entry), r < (i : Int) → arr[i]? = some e → id < e.1) := by
  apply findLoop_spec arr id hs arr.length 0 _ (-1) (by omega) (by omega) (by omega) (by omega)
  · intro i e hi; omega
  · intro i e hi he
    have := (List.getElem?_eq_some.1 he).1
    omega
  · rfl

theorem filter_eq_take {α : Type} (p : α → Bool) :
    ∀ (l : List α) (n : Nat), (∀ (i : Nat) (a : α), i < n → l[i]? = some a → p a = true) →
      (∀ (i : Nat) (a : α), n ≤ i → l[i]? = some a → p a = false) → l.filter p = l.take n := by
  intro l
  induction l with
  | nil => intro n _ _; simp
  | cons a l ih =>
    intro n h1 h2
    cases n with
    | zero =>
      have ha : p a = false := h2 0 a (le_refl _) (by simp)
      have := ih 0 (fun i b hi _ => absurd hi (Nat.not_lt_zero i))
        (fun i b _ hb => h2 (i + 1) b (Nat.zero_le _) (by simpa using hb))
      simp [List.filter, ha, this]
    | succ n =>
      have ha : p a = true := h1 0 a (Nat.succ_pos n) (by simp)
      have := ih n (fun i b hi hb => h1 (i + 1) b (Nat.succ_lt_succ hi) (by simpa using hb))
        (fun i b hi hb => h2 (i + 1) b (Nat.succ_le_succ hi) (by simpa using hb))
      simp [List.filter, ha, this]

/-- On an ascending chain `find` ends, and its result locates the visible entry: `-1` when no
entry is visible, else the index of the visible entry. -/
theorem find_visible (arr : Chain) (id : Int) (hs : Ascending arr) :
    ∃ r, find arr id = some r ∧
      ((r = -1 ∧ visible arr id = none) ∨
        (r ≠ -1 ∧ ∃ e, idx arr r = some e ∧ visible arr id = some e)) := by
  obtain ⟨r, hr, h1, h2, h3, h4⟩ := find_spec arr id hs
  refine ⟨r, hr, ?_⟩
  have hf : (arr.filter fun e => decide (e.1 ≤ id)) = arr.take (r + 1).toNat := by
    apply filter_eq_take
    · intro i a hi ha
      simpa using h3 i a (by omega) ha
    · intro i a hi ha
      have := h4 i a (by omega) ha
      simp only [decide_eq_false_iff_not]; omega
  by_cases hr1 : r = -1
  · left
    refine ⟨hr1, ?_⟩
    simp [visible, hf, hr1]
  · right
    refine ⟨hr1, ?_⟩
    obtain ⟨e, he, he2⟩ := idx_of_lt arr r (by omega) h2
    refine ⟨e, he, ?_⟩
    have hlen : (List.take (r + 1).toNat arr).length - 1 = r.toNat := by
      rw [List.length_take]; omega
    rw [visible, hf, List.getLast?_eq_getElem?, hlen, List.getElem?_take_of_lt (by omega)]
    exact he2

/-- `get` never changes the state it is called on. -/
theorem get_state (s : KVSnapshots) (key : String) (id : Int) (r : Except Exn String)
    (s1 : KVSnapshots) (h : get s key id = some (r, s1)) : s1 = s := by
  unfold get at h
  split at h
  · cases h; rfl
  split at h
  · cases h; rfl
  split at h
  · cases h
  split at h
  · cases h; rfl
  split at h
  · cases h; rfl
  have hdb : (db_at s.db key).2 = s.db := by
    unfold db_at
    cases hk : s.db key with
    | none => simp_all
    | some arr => rfl
  simp only [hdb] at h
  split at h
  · cases h
  split at h
  · cases h; rfl
  split at h
  · cases h
  split at h <;> (cases h; rfl)

/-- Outcome of `get` on a state whose chain for `key` (if any) is ascending. -/
theorem getResult_eq (s : KVSnapshots) (key : String) (id : Int)
    (hs : ∀ arr, s.db key = some arr → Ascending arr) :
    getResult s key id =
      if key = "" then some (.error InvalidKey)
      else if id < 0 ∨ s.curr_id ≤ id ∨ (s.snapshot_alive.length : Int) ≤ id then
        some (.error SnapshotNotFound)
      else if live s id then some (readChain (s.db key) id)
      else some (.error SnapshotDeleted) := by
  unfold getResult get
  by_cases hk : key = ""
  · simp [hk]
  simp only [hk, if_false]
  by_cases hv : id < 0 ∨ s.curr_id ≤ id ∨ (s.snapshot_alive.length : Int) ≤ id
  · simp [valid_snapshotID, hv]
  have hv2 : valid_snapshotID s id = true := by
    simp only [valid_snapshotID, ge_iff_le, hv, if_false]
  simp only [hv2, hv, if_false, Bool.not_true, Bool.false_eq_true]
  obtain ⟨b, hb, -⟩ := idx_of_lt s.snapshot_alive id (by omega) (by omega)
  simp only [hb, live]
  cases b with
  | false => simp
  | true =>
    simp only [Bool.not_true, Bool.false_eq_true, if_false, if_true]
    cases hdb : s.db key with
    | none => simp [readChain]
    | some arr =>
      have hat : db_at s.db key = (arr, s.db) := by simp [db_at, hdb]
      simp only [Option.isNone_some, Bool.false_eq_true, if_false, hat, readChain]
      obtain ⟨r, hr, hcase⟩ := find_visible arr id (hs arr hdb)
      rcases hcase with ⟨h1, h2⟩ | ⟨h1, e, h2, h3⟩
      · simp [hr, h1, h2]
      · simp only [hr, h1, if_false, h2, h3]
        obtain ⟨ep, v⟩ := e
        cases v <;> simp

/-! ## The write path on chains -/

theorem add_to_db_written (s : KVSnapshots) (key : String) (value : Option String)
    (hne : ∀ arr, s.db key = some arr → arr ≠ []) :
    add_to_db s key value = some (written s key value) := by
  rw [add_to_db_eq]
  cases h : s.db key with
  | none => simp [written, writeChain, h]
  | some arr =>
    cases hl : arr.getLast? with
    | none => exact absurd (List.getLast?_eq_none_iff.1 hl) (hne arr h)
    | some last =>
      by_cases hc : s.curr_id = last.1
      · simp [written, writeChain, h, hl, hc]
      · have hc2 : ¬ last.1 = s.curr_id := fun h => hc h.symm
        simp [written, writeChain, h, hl, hc, hc2]

theorem writeChain_getLast (chain : Option Chain) (epoch : Int) (value : Option String) :
    (writeChain chain epoch value).getLast? = some (epoch, value) := by
  unfold writeChain
  cases chain with
  | none => simp
  | some arr => dsimp only; split <;> simp

theorem writeChain_ne_nil (chain : Option Chain) (epoch : Int) (value : Option String) :
    writeChain chain epoch value ≠ [] := by
  intro h
  have := writeChain_getLast chain epoch value
  rw [h] at this
  cases this

/-- The entries below the write epoch are the same before and after a write. -/
theorem writeChain_filter (arr : Chain) (epoch : Int) (value : Option String) (p : Entry → Bool)
    (hp : ∀ e : Entry, e.1 = epoch → p e = false) :
    (writeChain (some arr) epoch value).filter p = arr.filter p := by
  unfold writeChain
  dsimp only
  split
  next h =>
    cases hl : arr.getLast? with
    | none => simp [hl] at h
    | some last =>
      have hlast : last.1 = epoch := by simpa [hl] using h
      have harr : arr.dropLast ++ [last] = arr := List.dropLast_append_getLast? last hl
      conv_rhs => rw [← harr]
      simp [List.filter_append, List.filter, hp (epoch, value) rfl, hp last hlast]
  next h =>
    simp [List.filter_append, List.filter, hp (epoch, value) rfl]

theorem writeChain_visible (arr : Chain) (epoch : Int) (value : Option String) (id : Int)
    (hid : id < epoch) : visible (writeChain (some arr) epoch value) id = visible arr id := by
  unfold visible
  rw [writeChain_filter]
  intro e he
  simp only [decide_eq_false_iff_not]; omega

theorem ascending_le_last {arr : Chain} (hs : Ascending arr) {last : Entry}
    (hl : arr.getLast? = some last) : ∀ e ∈ arr.dropLast, e.1 < last.1 := by
  have harr : arr.dropLast ++ [last] = arr := List.dropLast_append_getLast? last hl
  rw [Ascending, ← harr, List.pairwise_append] at hs
  intro e he
  exact hs.2.2 e he last (by simp)

theorem writeChain_ascending (arr : Chain) (epoch : Int) (value : Option String)
    (hs : Ascending arr) (hb : ∀ e ∈ arr, e.1 ≤ epoch) :
    Ascending (writeChain (some arr) epoch value) ∧
      ∀ e ∈ writeChain (some arr) epoch value, e.1 ≤ epoch := by
  unfold writeChain
  dsimp only
  split
  next h =>
    cases hl : arr.getLast? with
    | none => simp [hl] at h
    | some last =>
      have hlast : last.1 = epoch := by simpa [hl] using h
      have hlt := ascending_le_last hs hl
      constructor
      · rw [Ascending, List.pairwise_append]
        refine ⟨List.Pairwise.sublist (List.dropLast_sublist arr) hs, by simp, ?_⟩
        intro a ha b hb2
        simp only [List.mem_singleton] at hb2
        subst hb2
        have := hlt a ha
        simp only; omega
      · intro e he
        rcases List.mem_append.1 he with h1 | h1
        · exact hb e (List.mem_of_mem_dropLast h1)
        · simp only [List.mem_singleton] at h1; subst h1; exact le_refl _
  next h =>
    have hall : ∀ e ∈ arr, e.1 < epoch := by
      intro e he
      cases hl : arr.getLast? with
      | none => simp [List.getLast?_eq_none_iff.1 hl] at he
      | some last =>
        have hlast : last.1 ≠ epoch := by simpa [hl] using h
        have harr : arr.dropLast ++ [last] = arr := List.dropLast_append_getLast? last hl
        have hlm : last ∈ arr := by rw [← harr]; simp
        have hle := hb last hlm
        rw [← harr] at he
        rcases List.mem_append.1 he with h1 | h1
        · have := ascending_le_last hs hl e h1; omega
        · simp only [List.mem_singleton] at h1; subst h1; omega
    constructor
    · rw [Ascending, List.pairwise_append]
      refine ⟨hs, by simp, ?_⟩
      intro a ha b hb2
      simp only [List.mem_singleton] at hb2
      subst hb2
      exact hall a ha
    · intro e he
      rcases List.mem_append.1 he with h1 | h1
      · exact hb e h1
      · simp only [List.mem_singleton] at h1; subst h1; exact le_refl _

/-! ## The invariant of reachable states -/

theorem wrap32_of_range (x : Int) (h0 : -2147483648 ≤ x) (h1 : x ≤ 2147483647) :
    wrap32 x = x := by
  unfold wrap32
  omega

theorem inv_fresh : Inv fresh := by
  constructor <;> simp [fresh, INT_MAX]

theorem inv_written (s : KVSnapshots) (key : String) (value : Option String) (h : Inv s) :
    Inv (written s key value) := by
  have hkey : Ascending (writeChain (s.db key) s.curr_id value) ∧
      ∀ e ∈ writeChain (s.db key) s.curr_id value, e.1 ≤ s.curr_id := by
    cases hdb : s.db key with
    | none => simp [writeChain, Ascending]
    | some arr => exact writeChain_ascending arr _ value (h.chain_asc key arr hdb) (h.chain_le key arr hdb)
  constructor
  · exact h.curr_nonneg
  · exact h.curr_max
  · exact h.alive_len
  · intro k arr hk
    by_cases hkk : k = key
    · subst hkk
      simp only [written, Function.update_same, Option.some.injEq] at hk
      subst hk
      exact writeChain_ne_nil _ _ _
    · simp only [written, Function.update_noteq hkk] at hk
      exact h.chain_ne k arr hk
  · intro k arr hk
    by_cases hkk : k = key
    · subst hkk
      simp only [written, Function.update_same, Option.some.injEq] at hk
      subst hk
      exact hkey.1
    · simp only [written, Function.update_noteq hkk] at hk
      exact h.chain_asc k arr hk
  · intro k arr hk
    by_cases hkk : k = key
    · subst hkk
      simp only [written, Function.update_same, Option.some.injEq] at hk
      subst hk
      exact hkey.2
    · simp only [written, Function.update_noteq hkk] at hk
      exact h.chain_le k arr hk

/-! ## The operations on states satisfying the invariant -/

theorem put_eq (s : KVSnapshots) (key : String) (value : Option String) (h : Inv s) :
    put s key value =
      if key = "" then some (.error InvalidKey, s) else some (.ok (), written s key value) := by
  unfold put
  rw [add_to_db_written s key value (h.chain_ne key)]

theorem deleteKey_eq (s : KVSnapshots) (key : String) (h : Inv s) :
    deleteKey s key =
      if key = "" then some (.error InvalidKey, s)
      else if (s.db key).isNone then some (.error KeyNotFoundOnDelete, s)
      else some (.ok (), written s key none) := by
  unfold deleteKey
  rw [add_to_db_written s key none (h.chain_ne key)]

theorem deleteSnapshot_eq (s : KVSnapshots) (id : Int) (h : Inv s) :
    deleteSnapshot s id =
      if id < 0 ∨ s.curr_id ≤ id then some (.error SnapshotNotFound, s)
      else if live s id then some (.ok (), unalive s id)
      else some (.error SnapshotAlreadyDeleted, s) := by
  unfold deleteSnapshot
  have hlen := h.alive_len
  by_cases hv : id < 0 ∨ s.curr_id ≤ id
  · have : valid_snapshotID s id = false := by
      simp only [valid_snapshotID, ge_iff_le, ite_eq_left_iff, Bool.true_eq_false, imp_false,
        not_not]
      omega
    simp [this, hv]
  · have : valid_snapshotID s id = true := by
      simp only [valid_snapshotID, ge_iff_le, ite_eq_right_iff, Bool.false_eq_true, imp_false]
      omega
    obtain ⟨b, hb, -⟩ := idx_of_lt s.snapshot_alive id (by omega) (by omega)
    simp only [this, hv, hb, live, unalive, Bool.not_true, Bool.false_eq_true, if_false]
    cases b <;> simp

theorem takeSnapshot_eq (s : KVSnapshots) (h : Inv s) :
    takeSnapshot s =
      if s.curr_id = INT_MAX then some (.error .length_error, s)
      else some (.ok s.curr_id, snapped s) := by
  unfold takeSnapshot
  have hlen := h.alive_len
  have h0 := h.curr_nonneg
  have hmax := h.curr_max
  unfold INT_MAX at hmax ⊢
  by_cases hc : s.curr_id = 2147483647
  · have hw : wrap32 (s.curr_id + 1) = -2147483648 := by
      rw [hc]; decide
    simp only [hw, hc, if_true]
    rfl
  · have hw : wrap32 (s.curr_id + 1) = s.curr_id + 1 :=
      wrap32_of_range _ (by omega) (by omega)
    have hn : (s.curr_id + 1).toNat = s.snapshot_alive.length + 1 := by omega
    have hn2 : s.curr_id.toNat = s.snapshot_alive.length := by omega
    have hr : resize s.snapshot_alive (s.curr_id + 1).toNat = s.snapshot_alive ++ [false] := by
      simp [resize, hn, List.take_of_length_le]
    have hi : idx (s.snapshot_alive ++ [false]) s.curr_id = some false := by
      simp [idx, h0, hn2]
    have hset : (s.snapshot_alive ++ [false]).set s.curr_id.toNat true
        = s.snapshot_alive ++ [true] := by
      rw [hn2]; simp
    have hneg : ¬ s.curr_id + 1 < 0 := by omega
    simp only [hw, hneg, hc, if_false, hr, hi, hset, snapped]

theorem get_eq (s : KVSnapshots) (key : String) (id : Int) (h : Inv s) :
    get s key id =
      if key = "" then some (.error InvalidKey, s)
      else if id < 0 ∨ s.curr_id ≤ id then some (.error SnapshotNotFound, s)
      else if live s id then some (readChain (s.db key) id, s)
      else some (.error SnapshotDeleted, s) := by
  have hr := getResult_eq s key id (h.chain_asc key)
  have hlen := h.alive_len
  have hcond : (id < 0 ∨ s.curr_id ≤ id ∨ (s.snapshot_alive.length : Int) ≤ id)
      ↔ (id < 0 ∨ s.curr_id ≤ id) := by omega
  simp only [hcond] at hr
  cases hg : get s key id with
  | none =>
    simp only [getResult, hg, Option.map_none'] at hr
    split at hr
    · cases hr
    split at hr
    · cases hr
    split at hr <;> cases hr
  | some p =>
    obtain ⟨r, s1⟩ := p
    have hs1 := get_state s key id r s1 hg
    subst hs1
    simp only [getResult, hg, Option.map_some'] at hr
    split at hr
    · rw [if_pos (by assumption)]; simpa using hr
    rw [if_neg (by assumption)]
    split at hr
    · rw [if_pos (by assumption)]; simpa using hr
    rw [if_neg (by assumption)]
    split at hr
    · rw [if_pos (by assumption)]; simpa using hr
    · rw [if_neg (by assumption)]; simpa using hr

theorem inv_unalive (s : KVSnapshots) (id : Int) (h : Inv s) : Inv (unalive s id) := by
  constructor
  · exact h.curr_nonneg
  · exact h.curr_max
  · simpa [unalive] using h.alive_len
  · exact h.chain_ne
  · exact h.chain_asc
  · exact h.chain_le

theorem inv_snapped (s : KVSnapshots) (h : Inv s) (hlt : s.curr_id ≠ INT_MAX) :
    Inv (snapped s) := by
  have h0 := h.curr_nonneg
  have hlen := h.alive_len
  have hmax := h.curr_max
  constructor
  · simp only [snapped]; omega
  · simp only [snapped]; omega
  · simp only [snapped, List.length_append, List.length_singleton]; push_cast; omega
  · exact h.chain_ne
  · exact h.chain_asc
  · intro k arr hk e he
    have := h.chain_le k arr hk e he
    simp only [snapped]; omega

/-- Every call on a state satisfying the invariant is defined and keeps the invariant. -/
theorem step_inv (s : KVSnapshots) (op : Op) (h : Inv s) :
    ∃ s1, step s op = some s1 ∧ Inv s1 := by
  cases op with
  | put k v =>
    simp only [step, call, put_eq s k v h]
    split
    · exact ⟨s, rfl, h⟩
    · exact ⟨_, rfl, inv_written s k v h⟩
  | deleteKey k =>
    simp only [step, call, deleteKey_eq s k h]
    split
    · exact ⟨s, rfl, h⟩
    split
    · exact ⟨s, rfl, h⟩
    · exact ⟨_, rfl, inv_written s k none h⟩
  | deleteSnapshot i =>
    simp only [step, call, deleteSnapshot_eq s i h]
    split
    · exact ⟨s, rfl, h⟩
    split
    · exact ⟨_, rfl, inv_unalive s i h⟩
    · exact ⟨s, rfl, h⟩
  | get k i =>
    simp only [step, call, get_eq s k i h]
    split
    · exact ⟨s, rfl, h⟩
    split
    · exact ⟨s, rfl, h⟩
    split <;> exact ⟨s, rfl, h⟩
  | takeSnapshot =>
    simp only [step, call, takeSnapshot_eq s h]
    split
    · exact ⟨s, rfl, h⟩
    · exact ⟨_, rfl, inv_snapped s h (by assumption)⟩

theorem runFrom_inv (ops : List Op) : ∀ (s : KVSnapshots), Inv s →
    ∃ s1, runFrom s ops = some s1 ∧ Inv s1 := by
  induction ops with
  | nil => intro s h; exact ⟨s, rfl, h⟩
  | cons op ops ih =>
    intro s h
    obtain ⟨s1, h1, hi1⟩ := step_inv s op h
    obtain ⟨s2, h2, hi2⟩ := ih s1 hi1
    exact ⟨s2, by simp [runFrom, h1, h2], hi2⟩

/-- Every call sequence on a fresh store is defined. -/
theorem run_total (ops : List Op) : ∃ s, run ops = some s ∧ Inv s :=
  runFrom_inv ops fresh inv_fresh

theorem run_inv {ops : List Op} {s : KVSnapshots} (h : run ops = some s) : Inv s := by
  obtain ⟨s1, h1, hi⟩ := run_total ops
  rw [h] at h1; cases h1; exact hi

theorem runFrom_inv_of_eq {ops : List Op} {s s1 : KVSnapshots} (hi : Inv s)
    (h : runFrom s ops = some s1) : Inv s1 := by
  obtain ⟨s2, h2, hi2⟩ := runFrom_inv ops s hi
  rw [h] at h2; cases h2; exact hi2

theorem runFrom_append (ops1 ops2 : List Op) : ∀ s : KVSnapshots,
    runFrom s (ops1 ++ ops2) = (runFrom s ops1).bind fun s1 => runFrom s1 ops2 := by
  induction ops1 with
  | nil => intro s; simp [runFrom]
  | cons op ops ih =>
    intro s
    simp only [List.cons_append, runFrom]
    cases step s op with
    | none => simp
    | some s1 => simp [ih]

/-! ## One call, case by case -/

theorem call_put (s : KVSnapshots) (k : String) (v : Option String) (h : Inv s) :
    call s (.put k v) =
      if k = "" then some (.error InvalidKey, s) else some (.ok .unit, written s k v) := by
  simp only [call, put_eq s k v h]
  split <;> rfl

theorem call_deleteKey (s : KVSnapshots) (k : String) (h : Inv s) :
    call s (.deleteKey k) =
      if k = "" then some (.error InvalidKey, s)
      else if (s.db k).isNone then some (.error KeyNotFoundOnDelete, s)
      else some (.ok .unit, written s k none) := by
  simp only [call, deleteKey_eq s k h]
  split
  · rfl
  split <;> rfl

theorem call_deleteSnapshot (s : KVSnapshots) (i : Int) (h : Inv s) :
    call s (.deleteSnapshot i) =
      if i < 0 ∨ s.curr_id ≤ i then some (.error SnapshotNotFound, s)
      else if live s i then some (.ok .unit, unalive s i)
      else some (.error SnapshotAlreadyDeleted, s) := by
  simp only [call, deleteSnapshot_eq s i h]
  split
  · rfl
  split <;> rfl

theorem call_get (s : KVSnapshots) (k : String) (i : Int) (h : Inv s) :
    ∃ r, call s (.get k i) = some (r, s) := by
  simp only [call, get_eq s k i h]
  split
  · exact ⟨_, rfl⟩
  split
  · exact ⟨_, rfl⟩
  split <;> exact ⟨_, rfl⟩

theorem call_takeSnapshot (s : KVSnapshots) (h : Inv s) (hlt : s.curr_id ≠ INT_MAX) :
    call s .takeSnapshot = some (.ok (.int s.curr_id), snapped s) := by
  simp only [call, takeSnapshot_eq s h, if_neg hlt]
  rfl

theorem call_takeSnapshot_max (s : KVSnapshots) (h : Inv s) (heq : s.curr_id = INT_MAX) :
    call s .takeSnapshot = some (.error .length_error, s) := by
  simp only [call, takeSnapshot_eq s h, if_pos heq]
  rfl

/-- The four ways a call can leave the state. -/
theorem step_cases (s s1 : KVSnapshots) (op : Op) (h : Inv s) (hstep : step s op = some s1) :
    s1 = s ∨ (∃ k v, k ≠ "" ∧ (op = .put k v ∨ (op = .deleteKey k ∧ v = none)) ∧
        s1 = written s k v) ∨
      (∃ i, op = .deleteSnapshot i ∧ 0 ≤ i ∧ i < s.curr_id ∧ live s i ∧ s1 = unalive s i) ∨
      (op = .takeSnapshot ∧ s1 = snapped s) := by
  unfold step at hstep
  cases op with
  | put k v =>
    rw [call_put s k v h] at hstep
    split at hstep
    · left; simpa using hstep.symm
    · right; left
      exact ⟨k, v, by assumption, Or.inl rfl, by simpa using hstep.symm⟩
  | deleteKey k =>
    rw [call_deleteKey s k h] at hstep
    split at hstep
    · left; simpa using hstep.symm
    split at hstep
    · left; simpa using hstep.symm
    · right; left
      exact ⟨k, none, by assumption, Or.inr ⟨rfl, rfl⟩, by simpa using hstep.symm⟩
  | deleteSnapshot i =>
    rw [call_deleteSnapshot s i h] at hstep
    split at hstep
    · left; simpa using hstep.symm
    split at hstep
    · right; right; left
      rename_i h1 h2
      exact ⟨i, rfl, by omega, by omega, h2, by simpa using hstep.symm⟩
    · left; simpa using hstep.symm
  | get k i =>
    obtain ⟨r, hr⟩ := call_get s k i h
    rw [hr] at hstep
    left; simpa using hstep.symm
  | takeSnapshot =>
    by_cases hmax : s.curr_id = INT_MAX
    · rw [call_takeSnapshot_max s h hmax] at hstep
      left; simpa using hstep.symm
    · rw [call_takeSnapshot s h hmax] at hstep
      right; right; right
      exact ⟨rfl, by simpa using hstep.symm⟩

/-! ## What a snapshot sees -/

theorem view_written (s : KVSnapshots) (key k : String) (value : Option String) (S : Int)
    (hS : S < s.curr_id) : view (written s key value) k S = view s k S := by
  unfold view written
  by_cases hk : k = key
  · subst hk
    simp only [Function.update_same, Option.some_bind]
    cases hdb : s.db k with
    | none =>
      have : ¬ s.curr_id ≤ S := by omega
      simp [writeChain, visible, List.filter, this]
    | some arr => simpa using writeChain_visible arr s.curr_id value S hS
  · simp only [Function.update_noteq hk]

theorem visible_of_le (arr : Chain) (S : Int) (h : ∀ e ∈ arr, e.1 ≤ S) :
    visible arr S = arr.getLast? := by
  unfold visible
  rw [List.filter_eq_self.2]
  intro e he
  simpa using h e he

theorem step_view (s s1 : KVSnapshots) (op : Op) (h : Inv s) (hstep : step s op = some s1)
    (k : String) (S : Int) (hS : S < s.curr_id) : view s1 k S = view s k S := by
  rcases step_cases s s1 op h hstep with h1 | ⟨key, v, -, -, h1⟩ | ⟨i, -, -, -, -, h1⟩ | ⟨-, h1⟩
  · rw [h1]
  · rw [h1]; exact view_written s key k v S hS
  · rw [h1]; rfl
  · rw [h1]; rfl

theorem step_curr_le (s s1 : KVSnapshots) (op : Op) (h : Inv s) (hstep : step s op = some s1) :
    s.curr_id ≤ s1.curr_id := by
  rcases step_cases s s1 op h hstep with h1 | ⟨key, v, -, -, h1⟩ | ⟨i, -, -, -, -, h1⟩ | ⟨-, h1⟩
  · rw [h1]
  · rw [h1]; exact le_refl _
  · rw [h1]; exact le_refl _
  · rw [h1]; simp only [snapped]; omega

theorem idx_append_of_lt {α : Type} (l1 l2 : List α) (i : Int) (h : i < l1.length) :
    idx (l1 ++ l2) i = idx l1 i := by
  unfold idx
  split
  · rw [List.getElem?_append]
    rw [if_pos (by omega)]
  · rfl

theorem idx_set {α : Type} (l : List α) (i j : Int) (a : α) (hi : 0 ≤ i) :
    idx (l.set i.toNat a) j = if i = j then (idx l j).map fun _ => a else idx l j := by
  unfold idx
  by_cases hj : 0 ≤ j
  · simp only [hj, if_true, List.getElem?_set]
    by_cases hij : i = j
    · subst hij
      simp only [if_true]
      by_cases hl : i.toNat < l.length
      · simp [hl, List.getElem?_eq_getElem hl]
      · simp [hl, List.getElem?_eq_none (not_lt.1 hl)]
    · have : ¬ i.toNat = j.toNat := by omega
      simp [hij, this]
  · simp [hj]

/-- A liveness flag that is false stays false. -/
theorem step_dead (s s1 : KVSnapshots) (op : Op) (h : Inv s) (hstep : step s op = some s1)
    (S : Int) (hS : idx s.snapshot_alive S = some false) :
    idx s1.snapshot_alive S = some false := by
  have hlen := h.alive_len
  have hlt : 0 ≤ S ∧ S < s.snapshot_alive.length := by
    obtain ⟨h0, h1⟩ := idx_eq_some hS
    have := (List.getElem?_eq_some.1 h1).1
    omega
  rcases step_cases s s1 op h hstep with h1 | ⟨key, v, -, -, h1⟩ | ⟨i, -, hi, -, -, h1⟩ | ⟨-, h1⟩
  · rw [h1]; exact hS
  · rw [h1]; exact hS
  · rw [h1]
    simp only [unalive, idx_set _ _ _ _ hi, hS]
    split <;> rfl
  · rw [h1]
    simp only [snapped]
    rw [idx_append_of_lt _ _ _ hlt.2]; exact hS

/-- The liveness flag of an issued id can only have been true before if it is true after. -/
theorem step_live_back (s s1 : KVSnapshots) (op : Op) (h : Inv s) (hstep : step s op = some s1)
    (S : Int) (hS : S < s.curr_id) (hl : live s1 S) : live s S := by
  have hlen := h.alive_len
  rcases step_cases s s1 op h hstep with h1 | ⟨key, v, -, -, h1⟩ | ⟨i, -, hi, -, -, h1⟩ | ⟨-, h1⟩
  · rw [h1] at hl; exact hl
  · rw [h1] at hl; exact hl
  · rw [h1] at hl
    simp only [live, unalive, idx_set _ _ _ _ hi] at hl
    split at hl
    · cases hx : idx s.snapshot_alive S with
      | none => simp [hx] at hl
      | some b => simp [hx] at hl
    · exact hl
  · rw [h1] at hl
    simp only [live, snapped] at hl
    rw [idx_append_of_lt _ _ _ (by omega)] at hl
    exact hl

theorem live_range (s : KVSnapshots) (h : Inv s) (S : Int) (hl : live s S) :
    0 ≤ S ∧ S < s.curr_id := by
  have hlen := h.alive_len
  obtain ⟨h0, h1⟩ := idx_eq_some hl
  have := (List.getElem?_eq_some.1 h1).1
  omega

/-! ## Call sequences -/

theorem runFrom_cons_some {s s2 : KVSnapshots} {op : Op} {ops : List Op}
    (h : runFrom s (op :: ops) = some s2) : ∃ s1, step s op = some s1 ∧ runFrom s1 ops = some s2 := by
  simp only [runFrom] at h
  cases hs : step s op with
  | none => simp [hs] at h
  | some s1 => exact ⟨s1, rfl, by simpa [hs] using h⟩

theorem step_inv_of_eq {s s1 : KVSnapshots} {op : Op} (h : Inv s) (hstep : step s op = some s1) :
    Inv s1 := by
  obtain ⟨s2, h2, hi⟩ := step_inv s op h
  rw [hstep] at h2; cases h2; exact hi

theorem runFrom_curr_le (ops : List Op) : ∀ (s s2 : KVSnapshots), Inv s →
    runFrom s ops = some s2 → s.curr_id ≤ s2.curr_id := by
  induction ops with
  | nil => intro s s2 _ h; simp only [runFrom, Option.some.injEq] at h; rw [h]
  | cons op ops ih =>
    intro s s2 hi h
    obtain ⟨s1, h1, h2⟩ := runFrom_cons_some h
    have := step_curr_le s s1 op hi h1
    have := ih s1 s2 (step_inv_of_eq hi h1) h2
    omega

theorem runFrom_view (ops : List Op) : ∀ (s s2 : KVSnapshots), Inv s →
    runFrom s ops = some s2 → ∀ (k : String) (S : Int), S < s.curr_id →
      view s2 k S = view s k S := by
  induction ops with
  | nil => intro s s2 _ h; simp only [runFrom, Option.some.injEq] at h; rw [h]; intros; rfl
  | cons op ops ih =>
    intro s s2 hi h k S hS
    obtain ⟨s1, h1, h2⟩ := runFrom_cons_some h
    have hc := step_curr_le s s1 op hi h1
    rw [ih s1 s2 (step_inv_of_eq hi h1) h2 k S (by omega), step_view s s1 op hi h1 k S hS]

theorem runFrom_dead (ops : List Op) : ∀ (s s2 : KVSnapshots), Inv s →
    runFrom s ops = some s2 → ∀ (S : Int), idx s.snapshot_alive S = some false →
      idx s2.snapshot_alive S = some false := by
  induction ops with
  | nil => intro s s2 _ h; simp only [runFrom, Option.some.injEq] at h; rw [h]; intros; assumption
  | cons op ops ih =>
    intro s s2 hi h S hS
    obtain ⟨s1, h1, h2⟩ := runFrom_cons_some h
    exact ih s1 s2 (step_inv_of_eq hi h1) h2 S (step_dead s s1 op hi h1 S hS)

theorem runFrom_live_back (ops : List Op) : ∀ (s s2 : KVSnapshots), Inv s →
    runFrom s ops = some s2 → ∀ (S : Int), S < s.curr_id → live s2 S → live s S := by
  induction ops with
  | nil => intro s s2 _ h; simp only [runFrom, Option.some.injEq] at h; rw [h]; intros; assumption
  | cons op ops ih =>
    intro s s2 hi h S hS hl
    obtain ⟨s1, h1, h2⟩ := runFrom_cons_some h
    have hc := step_curr_le s s1 op hi h1
    exact step_live_back s s1 op hi h1 S hS (ih s1 s2 (step_inv_of_eq hi h1) h2 S (by omega) hl)

/-! ## The last write before a snapshot is what the snapshot shows -/

theorem lastWrite_view (k : String) (S : Int) (ops : List Op) :
    ∀ (s : KVSnapshots) (acc : Option Op) (sf : KVSnapshots), Inv s → s.curr_id ≤ S →
      ((s.db k).bind List.getLast?).map Prod.snd = acc.map Op.value →
      (∀ o, acc = some o → o = .deleteKey k ∨ ∃ v, o = .put k v) →
      runFrom s ops = some sf → S < sf.curr_id →
      (view sf k S).map Prod.snd = (lastWrite k S s acc ops).map Op.value ∧
        ∀ o, lastWrite k S s acc ops = some o → o = .deleteKey k ∨ ∃ v, o = .put k v := by
  induction ops with
  | nil =>
    intro s acc sf _ hle _ _ hrun hlt
    simp only [runFrom, Option.some.injEq] at hrun
    subst hrun; omega
  | cons op ops ih =>
    intro s acc sf hi hle htail hacc hrun hlt
    obtain ⟨s1, hstep, hrest⟩ := runFrom_cons_some hrun
    have hi1 := step_inv_of_eq hi hstep
    unfold step at hstep
    cases op with
    | put k1 v =>
      rw [call_put s k1 v hi] at hstep
      by_cases hk1 : k1 = ""
      · simp only [hk1, if_true, Option.map_some', Option.some.injEq] at hstep
        subst hstep
        have hc : call s (.put k1 v) = some (.error InvalidKey, s) := by
          rw [call_put s k1 v hi, if_pos hk1]
        simp only [lastWrite, hc]
        exact ih s acc sf hi hle htail hacc hrest hlt
      · simp only [hk1, if_false, Option.map_some', Option.some.injEq] at hstep
        subst hstep
        have hc : call s (.put k1 v) = some (.ok .unit, written s k1 v) := by
          rw [call_put s k1 v hi, if_neg hk1]
        by_cases hkk : k1 = k
        · subst hkk
          simp only [lastWrite, hc, Op.writes, decide_True, if_true, reduceCtorEq, false_and,
            if_false]
          apply ih _ _ sf hi1 hle _ _ hrest hlt
          · simp [written, writeChain_getLast, Op.value]
          · intro o ho
            simp only [Option.some.injEq] at ho
            exact Or.inr ⟨v, ho.symm⟩
        · simp only [lastWrite, hc, Op.writes, hkk, decide_False, reduceCtorEq, false_and,
            if_false, Bool.false_eq_true]
          apply ih _ _ sf hi1 hle _ hacc hrest hlt
          have hkk2 : k ≠ k1 := fun h => hkk h.symm
          simpa [written, Function.update_noteq hkk2] using htail
    | deleteKey k1 =>
      rw [call_deleteKey s k1 hi] at hstep
      by_cases hk1 : k1 = ""
      · simp only [hk1, if_true, Option.map_some', Option.some.injEq] at hstep
        subst hstep
        have hc : call s (.deleteKey k1) = some (.error InvalidKey, s) := by
          rw [call_deleteKey s k1 hi, if_pos hk1]
        simp only [lastWrite, hc]
        exact ih s acc sf hi hle htail hacc hrest hlt
      · by_cases hn : (s.db k1).isNone = true
        · simp only [hk1, hn, if_true, if_false, Option.map_some', Option.some.injEq] at hstep
          subst hstep
          have hc : call s (.deleteKey k1) = some (.error KeyNotFoundOnDelete, s) := by
            rw [call_deleteKey s k1 hi, if_neg hk1, if_pos hn]
          simp only [lastWrite, hc]
          exact ih s acc sf hi hle htail hacc hrest hlt
        · simp only [hk1, hn, if_false, Bool.false_eq_true, Option.map_some', Option.some.injEq] at hstep
          subst hstep
          have hc : call s (.deleteKey k1) = some (.ok .unit, written s k1 none) := by
            rw [call_deleteKey s k1 hi, if_neg hk1, if_neg hn]
          by_cases hkk : k1 = k
          · subst hkk
            simp only [lastWrite, hc, Op.writes, decide_True, if_true, reduceCtorEq, false_and,
              if_false]
            apply ih _ _ sf hi1 hle _ _ hrest hlt
            · simp [written, writeChain_getLast, Op.value]
            · intro o ho
              simp only [Option.some.injEq] at ho
              exact Or.inl ho.symm
          · simp only [lastWrite, hc, Op.writes, hkk, decide_False, reduceCtorEq, false_and,
              if_false, Bool.false_eq_true]
            apply ih _ _ sf hi1 hle _ hacc hrest hlt
            have hkk2 : k ≠ k1 := fun h => hkk h.symm
            simpa [written, Function.update_noteq hkk2] using htail
    | deleteSnapshot i =>
      rw [call_deleteSnapshot s i hi] at hstep
      by_cases hr : i < 0 ∨ s.curr_id ≤ i
      · simp only [hr, if_true, Option.map_some', Option.some.injEq] at hstep
        subst hstep
        have hc : call s (.deleteSnapshot i) = some (.error SnapshotNotFound, s) := by
          rw [call_deleteSnapshot s i hi, if_pos hr]
        simp only [lastWrite, hc]
        exact ih s acc sf hi hle htail hacc hrest hlt
      · by_cases hl : live s i
        · simp only [hr, hl, if_true, if_false, Option.map_some', Option.some.injEq] at hstep
          subst hstep
          have hc : call s (.deleteSnapshot i) = some (.ok .unit, unalive s i) := by
            rw [call_deleteSnapshot s i hi, if_neg hr, if_pos hl]
          simp only [lastWrite, hc, Op.writes, reduceCtorEq, false_and, if_false,
            Bool.false_eq_true]
          exact ih _ acc sf hi1 hle htail hacc hrest hlt
        · simp only [hr, hl, if_false, Option.map_some', Option.some.injEq] at hstep
          subst hstep
          have hc : call s (.deleteSnapshot i) = some (.error SnapshotAlreadyDeleted, s) := by
            rw [call_deleteSnapshot s i hi, if_neg hr, if_neg hl]
          simp only [lastWrite, hc]
          exact ih s acc sf hi hle htail hacc hrest hlt
    | get k1 i =>
      obtain ⟨r, hc⟩ := call_get s k1 i hi
      rw [hc] at hstep
      simp only [Option.map_some', Option.some.injEq] at hstep
      subst hstep
      cases r with
      | error e =>
        simp only [lastWrite, hc]
        exact ih s acc sf hi hle htail hacc hrest hlt
      | ok r =>
        simp only [lastWrite, hc, Op.writes, reduceCtorEq, false_and, if_false,
          Bool.false_eq_true]
        exact ih s acc sf hi hle htail hacc hrest hlt
    | takeSnapshot =>
      by_cases hmax : s.curr_id = INT_MAX
      · have hc := call_takeSnapshot_max s hi hmax
        rw [hc] at hstep
        simp only [Option.map_some', Option.some.injEq] at hstep
        subst hstep
        simp only [lastWrite, hc]
        exact ih s acc sf hi hle htail hacc hrest hlt
      have hc := call_takeSnapshot s hi hmax
      rw [hc] at hstep
      simp only [Option.map_some', Option.some.injEq] at hstep
      subst hstep
      by_cases hS : s.curr_id = S
      · simp only [lastWrite, hc, hS, and_self, if_true]
        refine ⟨?_, hacc⟩
        rw [runFrom_view ops _ sf hi1 hrest k S (by simp only [snapped]; omega), ← htail]
        unfold view
        cases hdb : s.db k with
        | none => simp [snapped, hdb]
        | some arr =>
          have := visible_of_le arr S (by rw [← hS]; exact hi.chain_le k arr hdb)
          simp [snapped, hdb, this]
      · have hne : ¬ (Ret.int s.curr_id = Ret.int S) := by
          intro h; injection h with h; exact hS h
        simp only [lastWrite, hc, hne, and_false, if_false, Op.writes, Bool.false_eq_true]
        exact ih _ acc sf hi1 (by simp only [snapped]; omega) htail hacc hrest hlt

theorem getResult_inv (s : KVSnapshots) (k : String) (S : Int) (h : Inv s) (hk : k ≠ "")
    (hl : live s S) : getResult s k S = some (readChain (s.db k) S) := by
  have hr := live_range s h S hl
  have hnr : ¬ (S < 0 ∨ s.curr_id ≤ S) := by omega
  simp only [getResult, get_eq s k S h, hk, hnr, hl, if_true, if_false, Option.map_some']

theorem readChain_cases (c : Option Chain) (S : Int) :
    (∀ v, readChain c S = .ok v ↔ (c.bind fun arr => visible arr S).map Prod.snd = some (some v)) ∧
    (readChain c S = .error KeyDeletedAtSnapshot ↔
      (c.bind fun arr => visible arr S).map Prod.snd = some none) ∧
    ((readChain c S = .error KeyNotFound ∨ readChain c S = .error KeyNotFoundAtSnapshot) ↔
      (c.bind fun arr => visible arr S).map Prod.snd = none) := by
  have d1 : KeyNotFound ≠ KeyDeletedAtSnapshot := by decide
  have d2 : KeyNotFoundAtSnapshot ≠ KeyDeletedAtSnapshot := by decide
  have d3 : KeyDeletedAtSnapshot ≠ KeyNotFound := by decide
  have d4 : KeyDeletedAtSnapshot ≠ KeyNotFoundAtSnapshot := by decide
  cases c with
  | none => simp [readChain, d1]
  | some arr =>
    simp only [readChain, Option.some_bind]
    cases hv : visible arr S with
    | none => simp [d2]
    | some e =>
      obtain ⟨ep, v⟩ := e
      cases v with
      | none => simp [d3, d4]
      | some v => simp

/-! ## Keys are only ever added, by a `put` -/

theorem step_db_none (s s1 : KVSnapshots) (op : Op) (h : Inv s) (hstep : step s op = some s1)
    (k : String) (hk : k ≠ "") :
    s1.db k = none ↔ (s.db k = none ∧ ∀ v, op ≠ .put k v) := by
  unfold step at hstep
  cases op with
  | put k1 v =>
    rw [call_put s k1 v h] at hstep
    by_cases hk1 : k1 = ""
    · simp only [hk1, if_true, Option.map_some', Option.some.injEq] at hstep
      subst hstep
      have : ∀ w, Op.put k1 v ≠ Op.put k w := by
        intro w hw; injection hw with h1 h2; exact hk (h1 ▸ hk1)
      simp [this]
    · simp only [hk1, if_false, Option.map_some', Option.some.injEq] at hstep
      subst hstep
      by_cases hkk : k = k1
      · subst hkk
        simp [written]
      · have : ∀ w, Op.put k1 v ≠ Op.put k w := by
          intro w hw; injection hw with h1 h2; exact hkk h1.symm
        simp [written, Function.update_noteq hkk, this]
  | deleteKey k1 =>
    rw [call_deleteKey s k1 h] at hstep
    by_cases hk1 : k1 = ""
    · simp only [hk1, if_true, Option.map_some', Option.some.injEq] at hstep
      subst hstep; simp
    · by_cases hn : (s.db k1).isNone = true
      · simp only [hk1, hn, if_true, if_false, Option.map_some', Option.some.injEq] at hstep
        subst hstep; simp
      · simp only [hk1, hn, if_false, Bool.false_eq_true, Option.map_some',
          Option.some.injEq] at hstep
        subst hstep
        by_cases hkk : k = k1
        · subst hkk
          have : s.db k ≠ none := by
            intro h0; rw [h0] at hn; exact hn rfl
          simp [written, this]
        · simp [written, Function.update_noteq hkk]
  | deleteSnapshot i =>
    rw [call_deleteSnapshot s i h] at hstep
    split at hstep
    · simp only [Option.map_some', Option.some.injEq] at hstep; subst hstep; simp
    split at hstep
    · simp only [Option.map_some', Option.some.injEq] at hstep; subst hstep; simp [unalive]
    · simp only [Option.map_some', Option.some.injEq] at hstep; subst hstep; simp
  | get k1 i =>
    obtain ⟨r, hr⟩ := call_get s k1 i h
    rw [hr] at hstep
    simp only [Option.map_some', Option.some.injEq] at hstep; subst hstep; simp
  | takeSnapshot =>
    by_cases hmax : s.curr_id = INT_MAX
    · rw [call_takeSnapshot_max s h hmax] at hstep
      simp only [Option.map_some', Option.some.injEq] at hstep; subst hstep; simp
    · rw [call_takeSnapshot s h hmax] at hstep
      simp only [Option.map_some', Option.some.injEq] at hstep; subst hstep; simp [snapped]

theorem runFrom_db_none (ops : List Op) : ∀ (s s2 : KVSnapshots), Inv s →
    runFrom s ops = some s2 → ∀ (k : String), k ≠ "" →
      (s2.db k = none ↔ (s.db k = none ∧ ∀ v, Op.put k v ∉ ops)) := by
  induction ops with
  | nil =>
    intro s s2 _ h k _
    simp only [runFrom, Option.some.injEq] at h
    subst h; simp
  | cons op ops ih =>
    intro s s2 hi h k hk
    obtain ⟨s1, h1, h2⟩ := runFrom_cons_some h
    rw [ih s1 s2 (step_inv_of_eq hi h1) h2 k hk, step_db_none s s1 op hi h1 k hk]
    simp only [List.mem_cons, not_or]
    constructor
    · rintro ⟨⟨ha, hb⟩, hc⟩
      exact ⟨ha, fun v => ⟨fun hv => hb v hv.symm, hc v⟩⟩
    · rintro ⟨ha, hb⟩
      exact ⟨⟨ha, fun v hv => (hb v).1 hv.symm⟩, fun v => (hb v).2⟩

/-- Writes leave the epoch counter and the liveness table alone. -/
theorem runFrom_writes (ops : List Op) : ∀ (s s2 : KVSnapshots), Inv s →
    runFrom s ops = some s2 → (∀ op ∈ ops, op.isWrite = true) →
      s2.curr_id = s.curr_id ∧ s2.snapshot_alive = s.snapshot_alive := by
  induction ops with
  | nil =>
    intro s s2 _ h _
    simp only [runFrom, Option.some.injEq] at h
    subst h; exact ⟨rfl, rfl⟩
  | cons op ops ih =>
    intro s s2 hi h hw
    obtain ⟨s1, h1, h2⟩ := runFrom_cons_some h
    have hop : op.isWrite = true := hw op (List.mem_cons_self _ _)
    obtain ⟨e1, e2⟩ := ih s1 s2 (step_inv_of_eq hi h1) h2
      (fun o ho => hw o (List.mem_cons_of_mem _ ho))
    have hs1 : s1.curr_id = s.curr_id ∧ s1.snapshot_alive = s.snapshot_alive := by
      rcases step_cases s s1 op hi h1 with
        h3 | ⟨key, v, -, -, h3⟩ | ⟨i, h4, -, -, -, h3⟩ | ⟨h4, h3⟩
      · rw [h3]; exact ⟨rfl, rfl⟩
      · rw [h3]; exact ⟨rfl, rfl⟩
      · rw [h4] at hop; cases hop
      · rw [h4] at hop; cases hop
    exact ⟨e1.trans hs1.1, e2.trans hs1.2⟩

theorem readChain_congr (c c1 : Option Chain) (S : Int)
    (hv : (c1.bind fun arr => visible arr S) = (c.bind fun arr => visible arr S))
    (hn : c1 = none ↔ c = none) : readChain c1 S = readChain c S := by
  cases c with
  | none =>
    rw [hn.2 rfl]
  | some arr =>
    cases c1 with
    | none => simp at hn
    | some arr1 =>
      simp only [Option.some_bind] at hv
      simp only [readChain, hv]

theorem readChain_keyNotFound (c : Option Chain) (S : Int)
    (h : readChain c S = .error KeyNotFound) : c = none := by
  have d1 : KeyNotFoundAtSnapshot ≠ KeyNotFound := by decide
  have d2 : KeyDeletedAtSnapshot ≠ KeyNotFound := by decide
  cases c with
  | none => rfl
  | some arr =>
    simp only [readChain] at h
    split at h
    · injection h with h; exact absurd h d1
    · injection h with h; exact absurd h d2
    · cases h

theorem call_write_ok (s s1 : KVSnapshots) (op : Op) (r : Except Exn Ret) (h : Inv s)
    (hc : call s op = some (r, s1)) (k : String) (hk : k ≠ "") (hdb : s.db k = none) :
    (op.writes k && r.isOk) = false ↔ ∀ v, op ≠ .put k v := by
  cases op with
  | put k1 v =>
    rw [call_put s k1 v h] at hc
    by_cases hkk : k1 = k
    · subst hkk
      simp only [hk, if_false, Option.some.injEq, Prod.mk.injEq] at hc
      rw [← hc.1]
      simp [Op.writes, Except.isOk, Except.toBool]
    · have : ∀ w, Op.put k1 v ≠ Op.put k w := by
        intro w hw; injection hw with h1 h2; exact hkk h1
      simp [Op.writes, hkk, this]
  | deleteKey k1 =>
    rw [call_deleteKey s k1 h] at hc
    by_cases hkk : k1 = k
    · subst hkk
      simp only [hk, hdb, if_false, Option.isNone_none, if_true, Option.some.injEq,
        Prod.mk.injEq] at hc
      rw [← hc.1]
      simp [Except.isOk, Except.toBool]
    · simp [Op.writes, hkk]
  | deleteSnapshot i => simp [Op.writes]
  | get k1 i => simp [Op.writes]
  | takeSnapshot => simp [Op.writes]

theorem step_of_call {s s1 : KVSnapshots} {op : Op} (h : step s op = some s1) :
    ∃ r, call s op = some (r, s1) := by
  unfold step at h
  cases hc : call s op with
  | none => simp [hc] at h
  | some p =>
    obtain ⟨r, s2⟩ := p
    simp only [hc, Option.map_some', Option.some.injEq] at h
    subst h
    exact ⟨r, rfl⟩

/-- A key is in the database exactly when some call wrote it successfully. -/
theorem runFrom_writtenBy (ops : List Op) : ∀ (s s2 : KVSnapshots), Inv s →
    runFrom s ops = some s2 → ∀ (k : String), k ≠ "" →
      (s2.db k = none ↔ (s.db k = none ∧ writtenBy k s ops = false)) := by
  induction ops with
  | nil =>
    intro s s2 _ h k _
    simp only [runFrom, Option.some.injEq] at h
    subst h; simp [writtenBy]
  | cons op ops ih =>
    intro s s2 hi h k hk
    obtain ⟨s1, h1, h2⟩ := runFrom_cons_some h
    obtain ⟨r, hc⟩ := step_of_call h1
    rw [ih s1 s2 (step_inv_of_eq hi h1) h2 k hk, step_db_none s s1 op hi h1 k hk]
    simp only [writtenBy, hc, Bool.or_eq_false_iff]
    constructor
    · rintro ⟨⟨ha, hb⟩, hd⟩
      exact ⟨ha, (call_write_ok s s1 op r hi hc k hk ha).2 hb, hd⟩
    · rintro ⟨ha, hb, hd⟩
      exact ⟨⟨ha, (call_write_ok s s1 op r hi hc k hk ha).1 hb⟩, hd⟩

theorem ascending_epoch_inj {arr : Chain} (hs : Ascending arr) {a b : Entry} (ha : a ∈ arr)
    (hb : b ∈ arr) (hab : a.1 = b.1) : a = b := by
  obtain ⟨i, hi⟩ := List.getElem?_of_mem ha
  obtain ⟨j, hj⟩ := List.getElem?_of_mem hb
  rcases Nat.lt_trichotomy i j with h | h | h
  · have := hs.lt_of_lt h hi hj; omega
  · subst h; rw [hi] at hj; cases hj; rfl
  · have := hs.lt_of_lt h hj hi; omega

theorem ascending_le_getLast {arr : Chain} (hs : Ascending arr) {last : Entry}
    (hl : arr.getLast? = some last) : ∀ e ∈ arr, e.1 ≤ last.1 := by
  intro e he
  have harr : arr.dropLast ++ [last] = arr := List.dropLast_append_getLast? last hl
  rw [← harr] at he
  rcases List.mem_append.1 he with h1 | h1
  · exact le_of_lt (ascending_le_last hs hl e h1)
  · simp only [List.mem_singleton] at h1; subst h1; exact le_refl _

/-- On an ascending chain the visible entry is the entry with the greatest epoch `≤ id`. -/
theorem visible_eq_greatest {arr : Chain} (hs : Ascending arr) (id : Int) {e : Entry}
    (he : e ∈ arr) (hid : e.1 ≤ id) (hmax : ∀ e1 ∈ arr, e1.1 ≤ id → e1.1 ≤ e.1) :
    visible arr id = some e := by
  unfold visible
  have hsub : Ascending (arr.filter fun e => decide (e.1 ≤ id)) :=
    List.Pairwise.sublist (List.filter_sublist arr) hs
  have hmem : e ∈ arr.filter fun e => decide (e.1 ≤ id) := by
    simp [List.mem_filter, he, hid]
  cases hl : (arr.filter fun e => decide (e.1 ≤ id)).getLast? with
  | none => rw [List.getLast?_eq_none_iff.1 hl] at hmem; cases hmem
  | some last =>
    have hlm := List.mem_of_getLast?_eq_some hl
    have h1 := ascending_le_getLast hsub hl e hmem
    obtain ⟨h2, h3⟩ := List.mem_filter.1 hlm
    have h4 := hmax last h2 (by simpa using h3)
    rw [ascending_epoch_inj hs h2 he (by omega)]

theorem visible_eq_none {arr : Chain} (id : Int) (h : ∀ e ∈ arr, id < e.1) :
    visible arr id = none := by
  unfold visible
  rw [List.filter_eq_nil_iff.2]
  · rfl
  · intro e he
    have := h e he
    simp only [decide_eq_true_eq]; omega

theorem deleteKey_ok (s s1 : KVSnapshots) (k : String) (h : Inv s)
    (hd : deleteKey s k = some (.ok (), s1)) :
    k ≠ "" ∧ s.db k ≠ none ∧ s1 = written s k none := by
  rw [deleteKey_eq s k h] at hd
  split at hd
  · cases hd
  split at hd
  · cases hd
  · rename_i h1 h2
    refine ⟨h1, ?_, ?_⟩
    · intro h0; rw [h0] at h2; exact h2 rfl
    · simp only [Option.some.injEq, Prod.mk.injEq, true_and] at hd
      exact hd.symm

/-- Calls that are no write to `k` leave the chain of `k` as it is. -/
theorem runFrom_db_same (ops : List Op) : ∀ (s s2 : KVSnapshots), Inv s →
    runFrom s ops = some s2 → ∀ (k : String), (∀ op ∈ ops, op.writes k = false) →
      s2.db k = s.db k := by
  induction ops with
  | nil =>
    intro s s2 _ h k _
    simp only [runFrom, Option.some.injEq] at h
    subst h; rfl
  | cons op ops ih =>
    intro s s2 hi h k hw
    obtain ⟨s1, h1, h2⟩ := runFrom_cons_some h
    rw [ih s1 s2 (step_inv_of_eq hi h1) h2 k (fun o ho => hw o (List.mem_cons_of_mem _ ho))]
    have hop := hw op (List.mem_cons_self _ _)
    rcases step_cases s s1 op hi h1 with
      h3 | ⟨key, v, -, h4, h3⟩ | ⟨i, -, -, -, -, h3⟩ | ⟨-, h3⟩
    · rw [h3]
    · rw [h3]
      have hkk : k ≠ key := by
        intro hk
        rcases h4 with h4 | ⟨h4, -⟩ <;>
        · rw [h4] at hop
          simp [Op.writes, hk] at hop
      simp only [written, Function.update_noteq hkk]
    · rw [h3]; rfl
    · rw [h3]; rfl

theorem runFrom_db_some (ops : List Op) (s s2 : KVSnapshots) (hi : Inv s)
    (h : runFrom s ops = some s2) (k : String) (hk : k ≠ "") (hs : s.db k ≠ none) :
    s2.db k ≠ none := by
  intro h0
  exact hs ((runFrom_db_none ops s s2 hi h k hk).1 h0).1

/-! ## Coalescing -/

/-- A write leaves the entries below the current epoch and one entry at the current epoch. -/
theorem writeChain_normal (c : Option Chain) (E : Int) (v : Option String)
    (hs : ∀ arr, c = some arr → Ascending arr) (hb : ∀ arr, c = some arr → ∀ e ∈ arr, e.1 ≤ E) :
    writeChain c E v = below (c.getD []) E ++ [(E, v)] := by
  cases c with
  | none => simp [writeChain, below]
  | some arr =>
    have hs1 := hs arr rfl
    have hb1 := hb arr rfl
    simp only [Option.getD_some]
    unfold writeChain below
    dsimp only
    cases hl : arr.getLast? with
    | none =>
      have := List.getLast?_eq_none_iff.1 hl
      subst this
      simp
    | some last =>
      have harr : arr.dropLast ++ [last] = arr := List.dropLast_append_getLast? last hl
      have hlt := ascending_le_last hs1 hl
      have hlm : last ∈ arr := by rw [← harr]; simp
      have hle := hb1 last hlm
      have hdrop : (arr.dropLast.filter fun e => decide (e.1 < E)) = arr.dropLast := by
        rw [List.filter_eq_self]
        intro e he
        have := hlt e he
        simp only [decide_eq_true_eq]; omega
      by_cases hc : last.1 = E
      · simp only [Option.map_some', hc, if_true]
        conv_rhs => rw [← harr]
        simp [List.filter_append, hdrop, List.filter, hc]
      · have hc2 : last.1 < E := by omega
        simp only [Option.map_some', Option.some.injEq, hc, if_false]
        have hall : (arr.filter fun e => decide (e.1 < E)) = arr := by
          rw [List.filter_eq_self]
          intro e he
          rw [← harr] at he
          rcases List.mem_append.1 he with h1 | h1
          · have := hlt e h1
            simp only [decide_eq_true_eq]; omega
          · simp only [List.mem_singleton] at h1
            subst h1
            simpa using hc2
        rw [hall]

theorem below_append_self (arr : Chain) (E : Int) (v : Option String) :
    below (below arr E ++ [(E, v)]) E = below arr E := by
  simp [below, List.filter_append, List.filter_filter, List.filter]

theorem written_chain (s : KVSnapshots) (k : String) (v : Option String) (h : Inv s) :
    (written s k v).db k = some (below (chainOf s k) s.curr_id ++ [(s.curr_id, v)]) := by
  simp only [written, Function.update_same, chainOf]
  rw [writeChain_normal (s.db k) s.curr_id v (h.chain_asc k) (h.chain_le k)]

/-- After `put(k,v1), ..., put(k,vn)` the chain of `k` is its entries below the current epoch
followed by the single entry `(curr_id, vn)`. -/
theorem putAll_chain (k : String) (hk : k ≠ "") (vs : List (Option String)) :
    ∀ (hne : vs ≠ []) (s : KVSnapshots), Inv s →
      ∃ s1, runFrom s (putAll k vs) = some s1 ∧ s1.curr_id = s.curr_id ∧
        s1.db k = some (below (chainOf s k) s.curr_id ++ [(s.curr_id, vs.getLast hne)]) := by
  induction vs with
  | nil => intro hne; exact absurd rfl hne
  | cons v vs ih =>
    intro hne s hi
    have hstep : step s (.put k v) = some (written s k v) := by
      simp [step, call_put s k v hi, hk]
    by_cases hvs : vs = []
    · subst hvs
      refine ⟨written s k v, ?_, rfl, ?_⟩
      · simp [putAll, runFrom, hstep]
      · simpa using written_chain s k v hi
    · obtain ⟨s1, h1, h2, h3⟩ := ih hvs (written s k v) (inv_written s k v hi)
      refine ⟨s1, ?_, h2, ?_⟩
      · simpa [putAll, runFrom, hstep] using h1
      · rw [h3, List.getLast_cons hvs]
        have hc : chainOf (written s k v) k = below (chainOf s k) s.curr_id ++ [(s.curr_id, v)] := by
          simp only [chainOf, written_chain s k v hi, Option.getD_some]
        rw [hc]
        have : (written s k v).curr_id = s.curr_id := rfl
        rw [this, below_append_self]

/-! ## Snapshot ids -/

theorem step_curr (s s1 : KVSnapshots) (op : Op) (h : Inv s) (hstep : step s op = some s1) :
    s1.curr_id = s.curr_id + (if op = .takeSnapshot ∧ s.curr_id ≠ INT_MAX then 1 else 0) := by
  by_cases hop : op = .takeSnapshot
  · subst hop
    by_cases hmax : s.curr_id = INT_MAX
    · simp only [step, call_takeSnapshot_max s h hmax, Option.map_some',
        Option.some.injEq] at hstep
      subst hstep
      simp [hmax]
    · simp only [step, call_takeSnapshot s h hmax, Option.map_some', Option.some.injEq] at hstep
      subst hstep
      simp [snapped, hmax]
  · rcases step_cases s s1 op h hstep with
      h3 | ⟨key, v, -, -, h3⟩ | ⟨i, -, -, -, -, h3⟩ | ⟨h4, -⟩
    · rw [h3]; simp [hop]
    · rw [h3]; simp [hop, written]
    · rw [h3]; simp [hop, unalive]
    · exact absurd h4 hop

/-- The epoch counter equals its initial value plus the number of `takeSnapshot` calls made,
capped at `INT_MAX`. -/
theorem runFrom_curr_count (ops : List Op) : ∀ (s s2 : KVSnapshots), Inv s →
    runFrom s ops = some s2 →
      s2.curr_id = min (s.curr_id + ((ops.count .takeSnapshot : Nat) : Int)) INT_MAX := by
  induction ops with
  | nil =>
    intro s s2 hi h
    simp only [runFrom, Option.some.injEq] at h
    subst h
    have := hi.curr_max
    simp only [List.count_nil, Nat.cast_zero, add_zero]
    omega
  | cons op ops ih =>
    intro s s2 hi h
    obtain ⟨s1, h1, h2⟩ := runFrom_cons_some h
    have hmax := hi.curr_max
    have hs1 := step_curr s s1 op hi h1
    rw [ih s1 s2 (step_inv_of_eq hi h1) h2, List.count_cons]
    by_cases hop : op = .takeSnapshot
    · by_cases hm : s.curr_id = INT_MAX
      · rw [if_neg (fun h => h.2 hm)] at hs1
        simp only [hop, beq_self_eq_true, if_true]
        push_cast
        omega
      · rw [if_pos ⟨hop, hm⟩] at hs1
        simp only [hop, beq_self_eq_true, if_true]
        push_cast
        omega
    · rw [if_neg (fun h => hop h.1)] at hs1
      have hb : ¬ (op == Op.takeSnapshot) = true := by simpa using hop
      simp only [hb, if_false]
      push_cast
      omega

theorem deleteSnapshot_ok (s s1 : KVSnapshots) (S : Int) (h : Inv s)
    (hd : deleteSnapshot s S = some (.ok (), s1)) :
    0 ≤ S ∧ S < s.curr_id ∧ live s S ∧ s1 = unalive s S := by
  rw [deleteSnapshot_eq s S h] at hd
  split at hd
  · cases hd
  split at hd
  · rename_i h1 h2
    simp only [Option.some.injEq, Prod.mk.injEq, true_and] at hd
    exact ⟨by omega, by omega, h2, hd.symm⟩
  · cases hd

theorem idx_unalive (s : KVSnapshots) (S j : Int) (hS : 0 ≤ S) :
    idx (unalive s S).snapshot_alive j
      = if S = j then (idx s.snapshot_alive j).map fun _ => false else idx s.snapshot_alive j := by
  simp only [unalive, idx_set _ _ _ _ hS]

/-! ## C1 -/

/-- C1 as stated is false: on `put("a", nullopt); takeSnapshot()` the read `get("a", 0)` fails
with KeyDeletedAtSnapshot although the last write to `a` before snapshot 0 is a `put`, not a
`deleteKey`. -/
theorem C1_as_stated_fails :
    ¬ (∀ (ops : List Op) (s : KVSnapshots) (k : String) (S : Int),
        run ops = some s → k ≠ "" → live s S →
        (∀ v, getResult s k S = some (.ok v) ↔
          lastWrite k S fresh none ops = some (.put k (some v))) ∧
        (getResult s k S = some (.error KeyDeletedAtSnapshot) ↔
          lastWrite k S fresh none ops = some (.deleteKey k)) ∧
        ((getResult s k S = some (.error KeyNotFound) ∨
            getResult s k S = some (.error KeyNotFoundAtSnapshot)) ↔
          lastWrite k S fresh none ops = none)) := by
  intro h
  have h1 := (h absentPutCalls absentPutState "a" 0 rfl (by decide) (by decide)).2.1
  have h2 : getResult absentPutState "a" 0 = some (.error KeyDeletedAtSnapshot) := by decide
  have h3 := h1.1 h2
  revert h3
  decide

/-- C1, amended: on a fresh store, after any call sequence, for a non-empty key `k` and a live
snapshot id `S`: `get(k,S)` returns `v` exactly when the last successful write to `k` before the
`takeSnapshot` call that returned `S` was `put(k,v)` with a present value; it fails with
KeyDeletedAtSnapshot exactly when that write stored an absent value (a `deleteKey(k)` or a
`put(k, nullopt)`); it fails with KeyNotFound or KeyNotFoundAtSnapshot exactly when `k` had not
been written before that call. The calls of `main` give the outcomes of the reference trace. -/
theorem C1_last_write_visible (ops : List Op) (s : KVSnapshots) (k : String) (S : Int)
    (hrun : run ops = some s) (hk : k ≠ "") (hl : live s S) :
    (∀ v, getResult s k S = some (.ok v) ↔
      lastWrite k S fresh none ops = some (.put k (some v))) ∧
    (getResult s k S = some (.error KeyDeletedAtSnapshot) ↔
      (lastWrite k S fresh none ops = some (.deleteKey k) ∨
        lastWrite k S fresh none ops = some (.put k none))) ∧
    ((getResult s k S = some (.error KeyNotFound) ∨
        getResult s k S = some (.error KeyNotFoundAtSnapshot)) ↔
      lastWrite k S fresh none ops = none) ∧
    outcomes fresh mainCalls = some
      [ .ok .unit, .ok (.int 0), .ok .unit, .ok .unit, .ok .unit, .ok (.int 1),
        .ok (.str "ant"), .ok .unit, .ok .unit, .ok (.int 2),
        .ok (.str "artistic"), .ok (.str "ballistic"), .ok .unit, .ok .unit, .ok (.int 3),
        .error KeyDeletedAtSnapshot, .ok .unit, .error SnapshotDeleted ] := by
  have hi := run_inv hrun
  have hr := live_range s hi S hl
  obtain ⟨hv, hform⟩ := lastWrite_view k S ops fresh none s inv_fresh (by simpa [fresh] using hr.1)
    (by simp [fresh]) (by intro o ho; cases ho) hrun hr.2
  obtain ⟨c1, c2, c3⟩ := readChain_cases (s.db k) S
  rw [getResult_inv s k S hi hk hl]
  simp only [Option.some.injEq]
  unfold view at hv
  rw [hv] at c1 c2 c3
  refine ⟨?_, ?_, ?_, by decide⟩
  · intro v
    rw [c1 v]
    cases hL : lastWrite k S fresh none ops with
    | none => simp
    | some o =>
      rcases hform o hL with rfl | ⟨w, rfl⟩
      · simp [Op.value]
      · simp [Op.value]
  · rw [c2]
    cases hL : lastWrite k S fresh none ops with
    | none => simp
    | some o =>
      rcases hform o hL with rfl | ⟨w, rfl⟩
      · simp [Op.value]
      · simp [Op.value]
  · rw [c3]
    cases hL : lastWrite k S fresh none ops with
    | none => simp
    | some o => simp

/-- C1, instance: the calls of `main`, key `a`, snapshot 1 (live: only snapshot 2 is deleted). -/
theorem C1_last_write_visible_witness :
    run mainCalls = some mainState ∧ "a" ≠ "" ∧ live mainState 1 ∧
    getResult mainState "a" 1 = some (.ok "ant") ∧
    lastWrite "a" 1 fresh none mainCalls = some (.put "a" (some "ant")) :=
  ⟨rfl, by decide, by decide, by decide,
    ((C1_last_write_visible mainCalls mainState "a" 1 rfl (by decide) (by decide)).1 "ant").1
      (by decide)⟩

/-! ## C2 -/

/-- C2 as stated is false: with snapshot 0 live and `a` never written, `get("a", 0)` fails with
KeyNotFound; after `put("a", "x")` the same read fails with KeyNotFoundAtSnapshot, another
error kind. -/
theorem C2_as_stated_fails :
    ¬ (∀ (ops : List Op) (s : KVSnapshots) (S : Int) (k : String) (ws : List Op)
        (s1 : KVSnapshots), run ops = some s → live s S → (∀ op ∈ ws, op.isWrite = true) →
        runFrom s ws = some s1 → getResult s1 k S = getResult s k S) := by
  intro h
  have h1 := h [.takeSnapshot] oneSnapState 0 "a" [.put "a" (some "x")] oneSnapPutState rfl
    (by decide) (by decide) rfl
  revert h1
  decide

/-- C2, amended: for a reachable state in which snapshot `S` is live, every key `k` and every
sequence of `put` and `deleteKey` calls made afterward, `get(k,S)` after the sequence returns the
same value or fails with the same error as before, except that a KeyNotFound failure stays
KeyNotFound only while no `put` on `k` is in the sequence and becomes KeyNotFoundAtSnapshot
once the sequence puts `k`. -/
theorem C2_snapshot_immutable (ops : List Op) (s : KVSnapshots) (S : Int) (k : String)
    (ws : List Op) (s1 : KVSnapshots) (hrun : run ops = some s) (hl : live s S)
    (hws : ∀ op ∈ ws, op.isWrite = true) (hrun1 : runFrom s ws = some s1) :
    (getResult s k S ≠ some (.error KeyNotFound) → getResult s1 k S = getResult s k S) ∧
    (getResult s k S = some (.error KeyNotFound) → (∀ v, Op.put k v ∉ ws) →
      getResult s1 k S = some (.error KeyNotFound)) ∧
    (getResult s k S = some (.error KeyNotFound) → (∃ v, Op.put k v ∈ ws) →
      getResult s1 k S = some (.error KeyNotFoundAtSnapshot)) := by
  have hi := run_inv hrun
  have hi1 := runFrom_inv_of_eq hi hrun1
  have hr := live_range s hi S hl
  obtain ⟨e1, e2⟩ := runFrom_writes ws s s1 hi hrun1 hws
  have hl1 : live s1 S := by unfold live; rw [e2]; exact hl
  have hview := runFrom_view ws s s1 hi hrun1 k S hr.2
  unfold view at hview
  by_cases hk : k = ""
  · have g0 : getResult s k S = some (.error InvalidKey) := by
      rw [getResult, get_eq s k S hi, if_pos hk]; rfl
    have g1 : getResult s1 k S = some (.error InvalidKey) := by
      rw [getResult, get_eq s1 k S hi1, if_pos hk]; rfl
    have d : InvalidKey ≠ KeyNotFound := by decide
    rw [g0, g1]
    refine ⟨fun _ => rfl, ?_, ?_⟩ <;>
    · intro h; injection h with h; injection h with h; exact absurd h d
  · have hnone := runFrom_db_none ws s s1 hi hrun1 k hk
    rw [getResult_inv s k S hi hk hl, getResult_inv s1 k S hi1 hk hl1]
    simp only [ne_eq, Option.some.injEq]
    refine ⟨?_, ?_, ?_⟩
    · intro hne
      have hsome : s.db k ≠ none := by
        intro h0; rw [h0] at hne; exact hne rfl
      rw [readChain_congr (s.db k) (s1.db k) S hview]
      rw [hnone]
      constructor
      · exact fun h => h.1
      · exact fun h => absurd h hsome
    · intro hknf hno
      have h0 := readChain_keyNotFound _ _ hknf
      rw [hnone.2 ⟨h0, hno⟩]
      rfl
    · intro hknf ⟨v, hv⟩
      have h0 := readChain_keyNotFound _ _ hknf
      have h1 : s1.db k ≠ none := by
        intro h; exact (hnone.1 h).2 v hv
      rw [h0] at hview
      cases hdb : s1.db k with
      | none => exact absurd hdb h1
      | some arr =>
        rw [hdb] at hview
        simp only [Option.some_bind, Option.none_bind] at hview
        simp only [readChain, hview]

/-- C2, instance: in the state after `main`, snapshot 1 is live and shows `a = "ant"`; it still
does after `put("a", "zebra"); deleteKey("b")`. -/
theorem C2_snapshot_immutable_witness :
    run mainCalls = some mainState ∧ live mainState 1 ∧
    getResult mainState "a" 1 ≠ some (.error KeyNotFound) ∧
    getResult ((runFrom mainState [.put "a" (some "zebra"), .deleteKey "b"]).getD fresh) "a" 1
      = getResult mainState "a" 1 :=
  ⟨rfl, by decide, by decide,
    (C2_snapshot_immutable mainCalls mainState 1 "a" [.put "a" (some "zebra"), .deleteKey "b"]
      ((runFrom mainState [.put "a" (some "zebra"), .deleteKey "b"]).getD fresh) rfl
      (by decide) (by decide) rfl).1 (by decide)⟩

/-! ## C3 -/

/-- C3: in every reachable state `get(key,id)` gives the first applicable outcome, in this order:
InvalidKey for an empty key; SnapshotNotFound for an id outside `[0, curr_id)`; SnapshotDeleted
for an id that is not live; KeyNotFound for a key no call has written; KeyNotFoundAtSnapshot when
every entry of the chain has an epoch above the id; KeyDeletedAtSnapshot when the entry with the
greatest epoch `≤ id` is a tombstone; and else the value of that entry. After `main`,
`get("missing", 0)` gives KeyNotFound and `get("a", 999)` gives SnapshotNotFound. -/
theorem C3_get_outcome_order (ops : List Op) (s : KVSnapshots) (key : String) (id : Int)
    (hrun : run ops = some s) :
    (key = "" → getResult s key id = some (.error InvalidKey)) ∧
    (key ≠ "" → (id < 0 ∨ s.curr_id ≤ id) →
      getResult s key id = some (.error SnapshotNotFound)) ∧
    (key ≠ "" → 0 ≤ id → id < s.curr_id → ¬ live s id →
      getResult s key id = some (.error SnapshotDeleted)) ∧
    (key ≠ "" → live s id → writtenBy key fresh ops = false →
      getResult s key id = some (.error KeyNotFound)) ∧
    (key ≠ "" → live s id → writtenBy key fresh ops = true →
      ∃ arr, s.db key = some arr ∧
        ((∀ e ∈ arr, id < e.1) → getResult s key id = some (.error KeyNotFoundAtSnapshot)) ∧
        (∀ e ∈ arr, e.1 ≤ id → (∀ e1 ∈ arr, e1.1 ≤ id → e1.1 ≤ e.1) →
          getResult s key id =
            some (match e.2 with
              | none => .error KeyDeletedAtSnapshot
              | some v => .ok v))) ∧
    getResult mainState "missing" 0 = some (.error KeyNotFound) ∧
    getResult mainState "a" 999 = some (.error SnapshotNotFound) := by
  have hi := run_inv hrun
  have hg := get_eq s key id hi
  refine ⟨?_, ?_, ?_, ?_, ?_, by decide, by decide⟩
  · intro hk
    rw [getResult, hg, if_pos hk]; rfl
  · intro hk hr
    rw [getResult, hg, if_neg hk, if_pos hr]; rfl
  · intro hk h0 h1 hl
    rw [getResult, hg, if_neg hk, if_neg (by omega), if_neg hl]; rfl
  · intro hk hl hw
    have hnone := (runFrom_writtenBy ops fresh s inv_fresh hrun key hk).2 ⟨rfl, hw⟩
    rw [getResult_inv s key id hi hk hl, hnone]; rfl
  · intro hk hl hw
    have hsome : s.db key ≠ none := by
      intro h0
      have := ((runFrom_writtenBy ops fresh s inv_fresh hrun key hk).1 h0).2
      rw [hw] at this; cases this
    cases hdb : s.db key with
    | none => exact absurd hdb hsome
    | some arr =>
      refine ⟨arr, rfl, ?_, ?_⟩
      · intro hall
        rw [getResult_inv s key id hi hk hl, hdb]
        simp only [readChain, visible_eq_none id hall]
      · intro e he hid hmax
        rw [getResult_inv s key id hi hk hl, hdb]
        simp only [readChain, visible_eq_greatest (hi.chain_asc key arr hdb) id he hid hmax]
        obtain ⟨ep, v⟩ := e
        cases v <;> rfl

/-- C3, instance: after `main`, snapshot 0 is live and `get("a", 0)` returns the value of the
entry `(0, "apple")`, the entry of `a` with the greatest epoch `≤ 0`. -/
theorem C3_get_outcome_order_witness :
    run mainCalls = some mainState ∧ live mainState 0 ∧ writtenBy "a" fresh mainCalls = true ∧
    mainState.db "a" = some [(0, some "apple"), (1, some "ant"), (2, some "artistic"), (3, none)] ∧
    getResult mainState "a" 0 = some (.ok "apple") ∧
    getResult mainState "" 0 = some (.error InvalidKey) :=
  ⟨rfl, by decide, by decide, by decide, by decide,
    (C3_get_outcome_order mainCalls mainState "" 0 rfl).1 rfl⟩

/-! ## C4 -/

/-- C4 as stated is false, in both halves. After `put("a","x")`, a `deleteKey("a")` at epoch 0
followed by `put("a","y"); takeSnapshot()` leaves snapshot `0 ≥ 0` reading `"y"`, not
KeyDeletedAtSnapshot. After `put("a","x"); deleteKey("a"); takeSnapshot(); put("a","y")`, a
`deleteKey("a")` at epoch 1 leaves snapshot `0 < 1` failing with KeyDeletedAtSnapshot, which is
neither a value nor KeyNotFoundAtSnapshot. -/
theorem C4_as_stated_fails :
    ¬ (∀ (ops : List Op) (s s1 : KVSnapshots) (k : String) (ops2 : List Op) (s2 : KVSnapshots)
        (S : Int), run ops = some s → deleteKey s k = some (.ok (), s1) →
        runFrom s1 ops2 = some s2 → live s2 S → s.curr_id ≤ S →
        getResult s2 k S = some (.error KeyDeletedAtSnapshot)) ∧
    ¬ (∀ (ops : List Op) (s s1 : KVSnapshots) (k : String) (ops2 : List Op) (s2 : KVSnapshots)
        (S : Int), run ops = some s → deleteKey s k = some (.ok (), s1) →
        runFrom s1 ops2 = some s2 → live s2 S → S < s.curr_id →
        ((∃ v, getResult s2 k S = some (.ok v)) ∨
          getResult s2 k S = some (.error KeyNotFoundAtSnapshot))) := by
  constructor
  · intro h
    have h1 := h [.put "a" (some "x")] putState (stateOf (deleteKey putState "a")) "a"
      [.put "a" (some "y"), .takeSnapshot]
      ((runFrom (stateOf (deleteKey putState "a")) [.put "a" (some "y"), .takeSnapshot]).getD fresh)
      0 rfl rfl rfl (by decide) (by decide)
    revert h1
    decide
  · intro h
    have h1 := h [.put "a" (some "x"), .deleteKey "a", .takeSnapshot, .put "a" (some "y")]
      reputState (stateOf (deleteKey reputState "a")) "a" []
      (stateOf (deleteKey reputState "a")) 0 rfl rfl rfl (by decide) (by decide)
    have h2 : getResult (stateOf (deleteKey reputState "a")) "a" 0
        = some (.error KeyDeletedAtSnapshot) := by decide
    rw [h2] at h1
    rcases h1 with ⟨v, hv⟩ | h1
    · cases hv
    · revert h1; decide

/-- C4, amended: after a successful `deleteKey(k)` made while `curr_id = E`: a snapshot `S`
returned by a later `takeSnapshot` (so `S ≥ E`) with no `put` or `deleteKey` on `k` between the
deletion and that `takeSnapshot` reads KeyDeletedAtSnapshot for `k` for as long as it is live; and
for every live snapshot `S < E`, after any later calls, `get(k,S)` gives what it gave before the
deletion: the value of the entry visible at `S`, KeyNotFoundAtSnapshot when `k` had no entry
with epoch `≤ S`, or KeyDeletedAtSnapshot when that entry was already a tombstone. -/
theorem C4_tombstone_visibility (ops : List Op) (s s1 : KVSnapshots) (k : String)
    (hrun : run ops = some s) (hdel : deleteKey s k = some (.ok (), s1)) :
    (∀ (ops1 ops2 : List Op) (sA sB s2 : KVSnapshots) (S : Int),
      runFrom s1 ops1 = some sA → (∀ op ∈ ops1, op.writes k = false) →
      takeSnapshot sA = some (.ok S, sB) → runFrom sB ops2 = some s2 → live s2 S →
      s.curr_id ≤ S ∧ getResult s2 k S = some (.error KeyDeletedAtSnapshot)) ∧
    (∀ (ops2 : List Op) (s2 : KVSnapshots) (S : Int),
      runFrom s1 ops2 = some s2 → live s2 S → S < s.curr_id →
      getResult s2 k S = getResult s k S ∧
      ∃ arr, s.db k = some arr ∧
        getResult s k S =
          some (match visible arr S with
            | none => .error KeyNotFoundAtSnapshot
            | some (_, none) => .error KeyDeletedAtSnapshot
            | some (_, some v) => .ok v)) := by
  have hi := run_inv hrun
  obtain ⟨hk, hdb, hs1⟩ := deleteKey_ok s s1 k hi hdel
  subst hs1
  have hi1 := inv_written s k none hi
  constructor
  · intro ops1 ops2 sA sB s2 S hA hw hsnap hB hl
    have hiA := runFrom_inv_of_eq hi1 hA
    rw [takeSnapshot_eq sA hiA] at hsnap
    have hmaxA : sA.curr_id ≠ INT_MAX := by
      intro hm
      rw [if_pos hm] at hsnap
      cases hsnap
    rw [if_neg hmaxA] at hsnap
    simp only [Option.some.injEq, Prod.mk.injEq, Except.ok.injEq] at hsnap
    obtain ⟨hS, hsB⟩ := hsnap
    subst hsB
    have hiB := inv_snapped sA hiA hmaxA
    have hi2 := runFrom_inv_of_eq hiB hB
    have hcurr := runFrom_curr_le ops1 _ sA hi1 hA
    have hdbA := runFrom_db_same ops1 _ sA hi1 hA k hw
    have hview := runFrom_view ops2 _ s2 hiB hB k S (by simp only [snapped]; omega)
    have hwk : (written s k none).db k = some (writeChain (s.db k) s.curr_id none) := by
      simp [written]
    have hvA : visible (writeChain (s.db k) s.curr_id none) S = some (s.curr_id, none) := by
      rw [visible_of_le, writeChain_getLast]
      rw [← hS]
      exact hiA.chain_le k _ (hdbA.trans hwk)
    have hvB : view (snapped sA) k S = some (s.curr_id, none) := by
      simp only [view, snapped, hdbA, hwk, Option.some_bind, hvA]
    refine ⟨by simpa [written, ← hS] using hcurr, ?_⟩
    rw [getResult_inv s2 k S hi2 hk hl]
    rw [hvB] at hview
    unfold view at hview
    cases hdb2 : s2.db k with
    | none => simp [hdb2] at hview
    | some arr2 =>
      simp only [hdb2, Option.some_bind] at hview
      simp only [readChain, hview]
  · intro ops2 s2 S h2 hl hS
    have hi2 := runFrom_inv_of_eq hi1 h2
    have hl1 : live (written s k none) S := runFrom_live_back ops2 _ s2 hi1 h2 S hS hl
    have hl0 : live s S := hl1
    have hview := (runFrom_view ops2 _ s2 hi1 h2 k S hS).trans (view_written s k k none S hS)
    have hdb1 : (written s k none).db k ≠ none := by simp [written]
    have hdb2 := runFrom_db_some ops2 _ s2 hi1 h2 k hk hdb1
    constructor
    · rw [getResult_inv s2 k S hi2 hk hl, getResult_inv s k S hi hk hl0]
      rw [readChain_congr (s.db k) (s2.db k) S hview]
      constructor
      · intro h; exact absurd h hdb2
      · intro h; exact absurd h hdb
    · cases hd : s.db k with
      | none => exact absurd hd hdb
      | some arr =>
        refine ⟨arr, rfl, ?_⟩
        rw [getResult_inv s k S hi hk hl0, hd]
        rfl

/-- C4, instance: in `main`, `deleteKey("a")` is made at epoch 3 after the first twelve calls;
after `deleteKey("b")` the next `takeSnapshot` returns 3, and `get("a", 3)` fails with
KeyDeletedAtSnapshot. -/
theorem C4_tombstone_visibility_witness :
    run (mainCalls.take 12) = some mainBeforeDeleteKey ∧
    deleteKey mainBeforeDeleteKey "a" = some (.ok (), stateOf (deleteKey mainBeforeDeleteKey "a")) ∧
    mainBeforeDeleteKey.curr_id ≤ 3 ∧
    getResult (stateOf (takeSnapshot (stateOf (deleteKey
      (stateOf (deleteKey mainBeforeDeleteKey "a")) "b")))) "a" 3
      = some (.error KeyDeletedAtSnapshot) :=
  ⟨rfl, rfl,
    (C4_tombstone_visibility (mainCalls.take 12) mainBeforeDeleteKey
      (stateOf (deleteKey mainBeforeDeleteKey "a")) "a" rfl rfl).1
      [.deleteKey "b"] []
      (stateOf (deleteKey (stateOf (deleteKey mainBeforeDeleteKey "a")) "b"))
      (stateOf (takeSnapshot (stateOf (deleteKey
        (stateOf (deleteKey mainBeforeDeleteKey "a")) "b"))))
      (stateOf (takeSnapshot (stateOf (deleteKey
        (stateOf (deleteKey mainBeforeDeleteKey "a")) "b"))))
      3 rfl (by decide) rfl rfl (by decide)⟩

/-! ## C5 -/

/-- C5: in a reachable state, for a non-empty key `k` and a non-empty list of values `v1..vn`,
the calls `put(k,v1), ..., put(k,vn)` are all defined and leave the epoch unchanged and the chain
of `k` with exactly one entry at the current epoch, holding `vn`; the chain is at most one
entry longer than before the first `put`, and its entries with smaller epochs are unchanged. -/
theorem C5_coalescing (ops : List Op) (s : KVSnapshots) (k : String) (vs : List (Option String))
    (hrun : run ops = some s) (hk : k ≠ "") (hne : vs ≠ []) :
    ∃ s1 arr1, runFrom s (putAll k vs) = some s1 ∧ s1.curr_id = s.curr_id ∧
      s1.db k = some arr1 ∧
      atEpoch arr1 s.curr_id = [(s.curr_id, vs.getLast hne)] ∧
      arr1.length ≤ (chainOf s k).length + 1 ∧
      below arr1 s.curr_id = below (chainOf s k) s.curr_id := by
  have hi := run_inv hrun
  obtain ⟨s1, h1, h2, h3⟩ := putAll_chain k hk vs hne s hi
  refine ⟨s1, _, h1, h2, h3, ?_, ?_, ?_⟩
  · simp only [atEpoch, below, List.filter_append, List.filter_filter]
    have : (List.filter (fun a => decide (a.1 = s.curr_id) && decide (a.1 < s.curr_id))
        (chainOf s k)) = [] := by
      rw [List.filter_eq_nil_iff]
      intro e _
      simp only [Bool.and_eq_true, decide_eq_true_eq, not_and]
      omega
    simp [this, List.filter]
  · simp only [List.length_append, List.length_singleton, below]
    have := List.length_filter_le (fun e : Entry => decide (e.1 < s.curr_id)) (chainOf s k)
    omega
  · exact below_append_self _ _ _

/-- C5, instance: after `put("a","x")` on a fresh store (epoch 0), the calls
`put("a","y"); put("a","z")` leave the chain of `a` as the single entry `(0, "z")`. -/
theorem C5_coalescing_witness :
    run [.put "a" (some "x")] = some putState ∧ "a" ≠ "" ∧ [some "y", some "z"] ≠ [] ∧
    ((runFrom putState (putAll "a" [some "y", some "z"])).getD fresh).db "a"
      = some [(0, some "z")] ∧
    ∃ s1 arr1, runFrom putState (putAll "a" [some "y", some "z"]) = some s1 ∧
      s1.curr_id = putState.curr_id ∧ s1.db "a" = some arr1 ∧
      atEpoch arr1 putState.curr_id
        = [(putState.curr_id, [some "y", some "z"].getLast (by decide))] ∧
      arr1.length ≤ (chainOf putState "a").length + 1 ∧
      below arr1 putState.curr_id = below (chainOf putState "a") putState.curr_id :=
  ⟨rfl, by decide, by decide, by decide,
    C5_coalescing [.put "a" (some "x")] putState "a" [some "y", some "z"] rfl (by decide)
      (by decide)⟩

/-! ## C6 -/

/-- C6: in a reachable state, a `put`, `deleteKey` or `deleteSnapshot` call that fails with an
error leaves the whole state (database, `curr_id`, liveness table) as it was before the call. -/
theorem C6_fail_clean (ops : List Op) (s : KVSnapshots) (hrun : run ops = some s) :
    (∀ key value e s1, put s key value = some (.error e, s1) → s1 = s) ∧
    (∀ key e s1, deleteKey s key = some (.error e, s1) → s1 = s) ∧
    (∀ id e s1, deleteSnapshot s id = some (.error e, s1) → s1 = s) := by
  have hi := run_inv hrun
  refine ⟨?_, ?_, ?_⟩
  · intro key value e s1 h
    rw [put_eq s key value hi] at h
    split at h
    · simp only [Option.some.injEq, Prod.mk.injEq] at h; exact h.2.symm
    · cases h
  · intro key e s1 h
    rw [deleteKey_eq s key hi] at h
    split at h
    · simp only [Option.some.injEq, Prod.mk.injEq] at h; exact h.2.symm
    split at h
    · simp only [Option.some.injEq, Prod.mk.injEq] at h; exact h.2.symm
    · cases h
  · intro id e s1 h
    rw [deleteSnapshot_eq s id hi] at h
    split at h
    · simp only [Option.some.injEq, Prod.mk.injEq] at h; exact h.2.symm
    split at h
    · cases h
    · simp only [Option.some.injEq, Prod.mk.injEq] at h; exact h.2.symm

/-- C6, instance: after `main`, `put("", "x")`, `deleteKey("zz")` and a second
`deleteSnapshot(2)` all fail, and the state is the one before the call. -/
theorem C6_fail_clean_witness :
    run mainCalls = some mainState ∧
    put mainState "" (some "x") = some (.error InvalidKey, mainState) ∧
    deleteKey mainState "zz" = some (.error KeyNotFoundOnDelete, mainState) ∧
    deleteSnapshot mainState 2 = some (.error SnapshotAlreadyDeleted, mainState) ∧
    stateOf (deleteSnapshot mainState 2) = mainState :=
  ⟨rfl, rfl, rfl, rfl,
    (C6_fail_clean mainCalls mainState rfl).2.2 2 SnapshotAlreadyDeleted
      (stateOf (deleteSnapshot mainState 2)) rfl⟩

/-! ## C7 -/

/-- C7: in a reachable state `deleteSnapshot(id)` is defined; it fails with SnapshotNotFound
exactly when `id` is outside `[0, curr_id)`; it fails with SnapshotAlreadyDeleted exactly when
`id` is in range and its liveness flag is false; otherwise it succeeds, sets the flag of `id` to
false and leaves the database, `curr_id` and all other flags unchanged, and a second
`deleteSnapshot(id)` then fails with SnapshotAlreadyDeleted. -/
theorem C7_deleteSnapshot_outcomes (ops : List Op) (s : KVSnapshots) (id : Int)
    (hrun : run ops = some s) :
    ∃ r s1, deleteSnapshot s id = some (r, s1) ∧
      (r = .error SnapshotNotFound ↔ (id < 0 ∨ s.curr_id ≤ id)) ∧
      (r = .error SnapshotAlreadyDeleted ↔
        (0 ≤ id ∧ id < s.curr_id ∧ idx s.snapshot_alive id = some false)) ∧
      (r ≠ .error SnapshotNotFound → r ≠ .error SnapshotAlreadyDeleted →
        r = .ok () ∧ s1.db = s.db ∧ s1.curr_id = s.curr_id ∧
        s1.snapshot_alive.length = s.snapshot_alive.length ∧
        idx s1.snapshot_alive id = some false ∧
        (∀ j, j ≠ id → idx s1.snapshot_alive j = idx s.snapshot_alive j) ∧
        deleteSnapshot s1 id = some (.error SnapshotAlreadyDeleted, s1)) := by
  have hi := run_inv hrun
  have hlen := hi.alive_len
  have d1 : SnapshotNotFound ≠ SnapshotAlreadyDeleted := by decide
  have d2 : SnapshotAlreadyDeleted ≠ SnapshotNotFound := by decide
  rw [deleteSnapshot_eq s id hi]
  by_cases hr : id < 0 ∨ s.curr_id ≤ id
  · refine ⟨_, s, if_pos hr, ?_, ?_, ?_⟩
    · simp [hr]
    · constructor
      · intro h; injection h with h; exact absurd h d1
      · intro h; omega
    · intro h; exact absurd rfl h
  · rw [if_neg hr]
    obtain ⟨b, hb, -⟩ := idx_of_lt s.snapshot_alive id (by omega) (by omega)
    cases b with
    | false =>
      have hl : ¬ live s id := by simp [live, hb]
      refine ⟨_, s, if_neg hl, ?_, ?_, ?_⟩
      · constructor
        · intro h; injection h with h; exact absurd h d2
        · intro h; exact absurd h hr
      · constructor
        · intro _; exact ⟨by omega, by omega, hb⟩
        · intro _; rfl
      · intro _ h; exact absurd rfl h
    | true =>
      have hl : live s id := hb
      refine ⟨_, unalive s id, if_pos hl, ?_, ?_, ?_⟩
      · constructor
        · intro h; cases h
        · intro h; exact absurd h hr
      · constructor
        · intro h; cases h
        · intro h; rw [hb] at h; cases h.2.2
      · intro _ _
        have hflag : idx (unalive s id).snapshot_alive id = some false := by
          rw [idx_unalive s id id (by omega), if_pos rfl, hb]; rfl
        refine ⟨rfl, rfl, rfl, by simp [unalive], hflag, ?_, ?_⟩
        · intro j hj
          rw [idx_unalive s id j (by omega), if_neg (fun h => hj h.symm)]
        · rw [deleteSnapshot_eq _ id (inv_unalive s id hi)]
          have hr1 : ¬ (id < 0 ∨ (unalive s id).curr_id ≤ id) := hr
          have hl1 : ¬ live (unalive s id) id := by simp [live, hflag]
          rw [if_neg hr1, if_neg hl1]

/-- C7, instance: in the state of `main` before its `deleteSnapshot(2)`, that call succeeds. -/
theorem C7_deleteSnapshot_outcomes_witness :
    run (mainCalls.take 16) = some mainBeforeDeleteSnapshot ∧
    deleteSnapshot mainBeforeDeleteSnapshot 2 = some (.ok (), mainAfterDeleteSnapshot) ∧
    idx mainAfterDeleteSnapshot.snapshot_alive 2 = some false ∧
    ∃ r s1, deleteSnapshot mainBeforeDeleteSnapshot 2 = some (r, s1) ∧
      (r = .error SnapshotNotFound ↔ ((2 : Int) < 0 ∨ mainBeforeDeleteSnapshot.curr_id ≤ 2)) ∧
      (r = .error SnapshotAlreadyDeleted ↔
        ((0 : Int) ≤ 2 ∧ 2 < mainBeforeDeleteSnapshot.curr_id ∧
          idx mainBeforeDeleteSnapshot.snapshot_alive 2 = some false)) ∧
      (r ≠ .error SnapshotNotFound → r ≠ .error SnapshotAlreadyDeleted →
        r = .ok () ∧ s1.db = mainBeforeDeleteSnapshot.db ∧
        s1.curr_id = mainBeforeDeleteSnapshot.curr_id ∧
        s1.snapshot_alive.length = mainBeforeDeleteSnapshot.snapshot_alive.length ∧
        idx s1.snapshot_alive 2 = some false ∧
        (∀ j, j ≠ 2 → idx s1.snapshot_alive j = idx mainBeforeDeleteSnapshot.snapshot_alive j) ∧
        deleteSnapshot s1 2 = some (.error SnapshotAlreadyDeleted, s1)) :=
  ⟨rfl, rfl, by decide,
    C7_deleteSnapshot_outcomes (mainCalls.take 16) mainBeforeDeleteSnapshot 2 rfl⟩

/-! ## C8 -/

/-- C8: once `deleteSnapshot(S)` has succeeded in a reachable state, every later call sequence is
defined and in the state it reaches `S` is not live, is still in range `[0, curr_id)`, and
`get(k,S)` fails with SnapshotDeleted for every non-empty key `k`. -/
theorem C8_deleted_stays_deleted (ops : List Op) (s s1 : KVSnapshots) (S : Int)
    (ops2 : List Op) (hrun : run ops = some s)
    (hdel : deleteSnapshot s S = some (.ok (), s1)) :
    ∃ s2, runFrom s1 ops2 = some s2 ∧ ¬ live s2 S ∧ 0 ≤ S ∧ S < s2.curr_id ∧
      ∀ k, k ≠ "" → getResult s2 k S = some (.error SnapshotDeleted) := by
  have hi := run_inv hrun
  obtain ⟨h0, h1, hl, hs1⟩ := deleteSnapshot_ok s s1 S hi hdel
  subst hs1
  have hi1 := inv_unalive s S hi
  obtain ⟨s2, h2, hi2⟩ := runFrom_inv ops2 _ hi1
  have hflag : idx (unalive s S).snapshot_alive S = some false := by
    rw [idx_unalive s S S h0, if_pos rfl, hl]; rfl
  have hflag2 := runFrom_dead ops2 _ s2 hi1 h2 S hflag
  have hcurr := runFrom_curr_le ops2 _ s2 hi1 h2
  have hc1 : (unalive s S).curr_id = s.curr_id := rfl
  have hnl : ¬ live s2 S := by simp [live, hflag2]
  refine ⟨s2, h2, hnl, h0, by omega, ?_⟩
  intro k hk
  rw [getResult, get_eq s2 k S hi2, if_neg hk, if_neg (by omega), if_neg hnl]
  rfl

/-- C8, instance: `main` deletes snapshot 2; after three more `takeSnapshot` calls and a `put`,
`get("a", 2)` still fails with SnapshotDeleted. -/
theorem C8_deleted_stays_deleted_witness :
    run (mainCalls.take 16) = some mainBeforeDeleteSnapshot ∧
    deleteSnapshot mainBeforeDeleteSnapshot 2 = some (.ok (), mainAfterDeleteSnapshot) ∧
    ∃ s2, runFrom mainAfterDeleteSnapshot
        [.takeSnapshot, .put "a" (some "again"), .takeSnapshot, .takeSnapshot] = some s2 ∧
      ¬ live s2 2 ∧ (0 : Int) ≤ 2 ∧ 2 < s2.curr_id ∧
      ∀ k, k ≠ "" → getResult s2 k 2 = some (.error SnapshotDeleted) :=
  ⟨rfl, rfl,
    C8_deleted_stays_deleted (mainCalls.take 16) mainBeforeDeleteSnapshot mainAfterDeleteSnapshot 2
      [.takeSnapshot, .put "a" (some "again"), .takeSnapshot, .takeSnapshot] rfl rfl⟩

/-! ## C9 -/

/-- C9: when `deleteSnapshot(S)` succeeds in a reachable state, `get(k,T)` gives the same value
or the same error after the deletion as before it, for every key `k` and every id `T ≠ S`. -/
theorem C9_deletion_is_read_gating (ops : List Op) (s s1 : KVSnapshots) (S T : Int)
    (k : String) (hrun : run ops = some s) (hdel : deleteSnapshot s S = some (.ok (), s1))
    (hne : T ≠ S) : getResult s1 k T = getResult s k T := by
  have hi := run_inv hrun
  obtain ⟨h0, h1, hl, hs1⟩ := deleteSnapshot_ok s s1 S hi hdel
  subst hs1
  have hlive : live (unalive s S) T ↔ live s T := by
    unfold live
    rw [idx_unalive s S T h0, if_neg (fun h => hne h.symm)]
  have hc1 : (unalive s S).curr_id = s.curr_id := rfl
  have hdb : (unalive s S).db = s.db := rfl
  rw [getResult, getResult, get_eq _ k T (inv_unalive s S hi), get_eq s k T hi, hc1, hdb]
  by_cases hk : k = ""
  · simp [hk]
  by_cases hr : T < 0 ∨ s.curr_id ≤ T
  · simp [hk, hr]
  by_cases hlt : live s T
  · simp [hk, hr, hlt, hlive.2 hlt]
  · have : ¬ live (unalive s S) T := fun h => hlt (hlive.1 h)
    simp [hk, hr, hlt, this]

/-- C9, instance: `main` deletes snapshot 2; `get("a", 1)` returns `"ant"` before and after. -/
theorem C9_deletion_is_read_gating_witness :
    run (mainCalls.take 16) = some mainBeforeDeleteSnapshot ∧
    deleteSnapshot mainBeforeDeleteSnapshot 2 = some (.ok (), mainAfterDeleteSnapshot) ∧
    (1 : Int) ≠ 2 ∧ getResult mainBeforeDeleteSnapshot "a" 1 = some (.ok "ant") ∧
    getResult mainAfterDeleteSnapshot "a" 1 = getResult mainBeforeDeleteSnapshot "a" 1 :=
  ⟨rfl, rfl, by decide, by decide,
    C9_deletion_is_read_gating (mainCalls.take 16) mainBeforeDeleteSnapshot
      mainAfterDeleteSnapshot 2 1 "a" rfl rfl (by decide)⟩

theorem count_manySnapshots : manySnapshots.count .takeSnapshot = 2147483647 :=
  List.count_replicate_self _ _

/-- After `INT_MAX` calls of `takeSnapshot` on a fresh store the counter is `INT_MAX`. -/
theorem run_manySnapshots :
    ∃ s, run manySnapshots = some s ∧ Inv s ∧ s.curr_id = INT_MAX := by
  obtain ⟨s, hrun, hi⟩ := run_total manySnapshots
  refine ⟨s, hrun, hi, ?_⟩
  rw [runFrom_curr_count manySnapshots fresh s inv_fresh hrun, count_manySnapshots]
  decide

/-! ## C10 -/

/-- C11 as stated is false: after `2^31 - 1` calls of `takeSnapshot` on a fresh store `curr_id`
is `INT_MAX`, and one more `takeSnapshot` call fails and leaves `curr_id` as it is instead of
increasing it by 1. -/
theorem C11_as_stated_fails :
    ¬ (∀ (ops : List Op) (s : KVSnapshots), run ops = some s →
        fresh.curr_id = 0 ∧
        s.curr_id = ((ops.count .takeSnapshot : Nat) : Int) ∧
        ∀ op, ∃ r s1, call s op = some (r, s1) ∧ s.curr_id ≤ s1.curr_id ∧
          (op = .takeSnapshot → s1.curr_id = s.curr_id + 1) ∧
          (op ≠ .takeSnapshot → s1.curr_id = s.curr_id)) := by
  intro h
  obtain ⟨s, hrun, hi, hmax⟩ := run_manySnapshots
  obtain ⟨r, s1, hc, -, h1, -⟩ := (h manySnapshots s hrun).2.2 .takeSnapshot
  rw [call_takeSnapshot_max s hi hmax] at hc
  simp only [Option.some.injEq, Prod.mk.injEq] at hc
  have := h1 rfl
  rw [← hc.2] at this
  omega

/-- C11, amended: `curr_id` is 0 on a fresh store; in a reachable state every call is defined; a
`takeSnapshot` call made while `curr_id < INT_MAX = 2^31 - 1` increases `curr_id` by exactly 1,
and one made at `curr_id = INT_MAX` fails with `std::length_error` and leaves the state as it
is; a `put`, `deleteKey`, `get` or `deleteSnapshot` call leaves `curr_id` unchanged whether it
succeeds or fails; so `curr_id` never decreases and equals the number of `takeSnapshot` calls
made so far, capped at `INT_MAX`. -/
theorem C11_monotonic_epochs (ops : List Op) (s : KVSnapshots) (hrun : run ops = some s) :
    fresh.curr_id = 0 ∧
    s.curr_id = min ((ops.count .takeSnapshot : Nat) : Int) INT_MAX ∧
    ∀ op, ∃ r s1, call s op = some (r, s1) ∧ s.curr_id ≤ s1.curr_id ∧
      (op = .takeSnapshot → s.curr_id < INT_MAX → s1.curr_id = s.curr_id + 1) ∧
      (op = .takeSnapshot → s.curr_id = INT_MAX → r = .error .length_error ∧ s1 = s) ∧
      (op ≠ .takeSnapshot → s1.curr_id = s.curr_id) := by
  have hi := run_inv hrun
  refine ⟨rfl, ?_, ?_⟩
  · rw [runFrom_curr_count ops fresh s inv_fresh hrun]
    simp only [fresh, zero_add]
  · intro op
    obtain ⟨s1, hstep, -⟩ := step_inv s op hi
    obtain ⟨r, hc⟩ := step_of_call hstep
    have h1 := step_curr s s1 op hi hstep
    refine ⟨r, s1, hc, ?_, ?_, ?_, ?_⟩
    · rw [h1]; split <;> omega
    · intro hop hlt
      rw [h1, if_pos ⟨hop, ne_of_lt hlt⟩]
    · intro hop hmax
      subst hop
      rw [call_takeSnapshot_max s hi hmax] at hc
      simp only [Option.some.injEq, Prod.mk.injEq] at hc
      exact ⟨hc.1.symm, hc.2.symm⟩
    · intro hop
      rw [h1, if_neg (fun h => hop h.1)]; omega

/-- C11, instance: after the calls of `main`, four `takeSnapshot` calls have been made and
`curr_id` is 4. -/
theorem C11_monotonic_epochs_witness :
    run mainCalls = some mainState ∧ mainState.curr_id = 4 ∧
    mainState.curr_id = min ((mainCalls.count .takeSnapshot : Nat) : Int) INT_MAX :=
  ⟨rfl, by decide, (C11_monotonic_epochs mainCalls mainState rfl).2.1⟩

theorem written_tail (s : KVSnapshots) (k : String) (v : Option String) :
    ∃ arr, (written s k v).db k = some arr ∧ arr.getLast? = some (s.curr_id, v) :=
  ⟨writeChain (s.db k) s.curr_id v, by simp [written], writeChain_getLast _ _ _⟩

theorem written_frame (s : KVSnapshots) (k : String) (v : Option String) :
    (∀ k1, k1 ≠ k → (written s k v).db k1 = s.db k1) ∧
    (written s k v).curr_id = s.curr_id ∧
    (written s k v).snapshot_alive = s.snapshot_alive := by
  refine ⟨?_, rfl, rfl⟩
  intro k1 hk
  simp only [written, Function.update_noteq hk]

/-! ## C12 -/

/-- C12: in a reachable state `deleteKey(k)` is defined; it fails with InvalidKey exactly when `k`
is empty; it fails with the key-not-found exception of `deleteKey` exactly when `k` is non-empty
and no call has written it; otherwise it succeeds, and then the tail entry of the chain of `k` is
`(curr_id, tombstone)` while the chains of all other keys, `curr_id` and the liveness table are
unchanged. -/
theorem C12_deleteKey_outcomes (ops : List Op) (s : KVSnapshots) (k : String)
    (hrun : run ops = some s) :
    ∃ r s1, deleteKey s k = some (r, s1) ∧
      (r = .error InvalidKey ↔ k = "") ∧
      (r = .error KeyNotFoundOnDelete ↔ (k ≠ "" ∧ writtenBy k fresh ops = false)) ∧
      (r ≠ .error InvalidKey → r ≠ .error KeyNotFoundOnDelete →
        r = .ok () ∧
        (∃ arr, s1.db k = some arr ∧ arr.getLast? = some (s.curr_id, none)) ∧
        (∀ k1, k1 ≠ k → s1.db k1 = s.db k1) ∧
        s1.curr_id = s.curr_id ∧ s1.snapshot_alive = s.snapshot_alive) := by
  have hi := run_inv hrun
  have d1 : InvalidKey ≠ KeyNotFoundOnDelete := by decide
  have d2 : KeyNotFoundOnDelete ≠ InvalidKey := by decide
  rw [deleteKey_eq s k hi]
  by_cases hk : k = ""
  · refine ⟨_, s, if_pos hk, ?_, ?_, ?_⟩
    · simp [hk]
    · constructor
      · intro h; injection h with h; exact absurd h d1
      · intro h; exact absurd hk h.1
    · intro h; exact absurd rfl h
  · rw [if_neg hk]
    have hw := runFrom_writtenBy ops fresh s inv_fresh hrun k hk
    by_cases hn : (s.db k).isNone = true
    · have hnone : s.db k = none := by
        cases hdb : s.db k with
        | none => rfl
        | some arr => rw [hdb] at hn; cases hn
      refine ⟨_, s, if_pos hn, ?_, ?_, ?_⟩
      · constructor
        · intro h; injection h with h; exact absurd h d2
        · intro h; exact absurd h hk
      · constructor
        · intro _; exact ⟨hk, (hw.1 hnone).2⟩
        · intro _; rfl
      · intro _ h; exact absurd rfl h
    · have hsome : s.db k ≠ none := by
        intro h0; rw [h0] at hn; exact hn rfl
      refine ⟨_, written s k none, if_neg hn, ?_, ?_, ?_⟩
      · constructor
        · intro h; cases h
        · intro h; exact absurd h hk
      · constructor
        · intro h; cases h
        · intro h; exact absurd (hw.2 ⟨rfl, h.2⟩) hsome
      · intro _ _
        obtain ⟨f1, f2, f3⟩ := written_frame s k none
        exact ⟨rfl, written_tail s k none, f1, f2, f3⟩

/-- C12, instance: in `main`, before the first `deleteKey`, the key `a` has been written and
`deleteKey("a")` succeeds, leaving the tombstone `(3, none)` at the tail of its chain. -/
theorem C12_deleteKey_outcomes_witness :
    run (mainCalls.take 12) = some mainBeforeDeleteKey ∧
    writtenBy "a" fresh (mainCalls.take 12) = true ∧
    (stateOf (deleteKey mainBeforeDeleteKey "a")).db "a"
      = some [(0, some "apple"), (1, some "ant"), (2, some "artistic"), (3, none)] ∧
    ∃ r s1, deleteKey mainBeforeDeleteKey "a" = some (r, s1) ∧
      (r = .error InvalidKey ↔ "a" = "") ∧
      (r = .error KeyNotFoundOnDelete ↔ ("a" ≠ "" ∧ writtenBy "a" fresh (mainCalls.take 12) = false)) ∧
      (r ≠ .error InvalidKey → r ≠ .error KeyNotFoundOnDelete →
        r = .ok () ∧
        (∃ arr, s1.db "a" = some arr ∧ arr.getLast? = some (mainBeforeDeleteKey.curr_id, none)) ∧
        (∀ k1, k1 ≠ "a" → s1.db k1 = mainBeforeDeleteKey.db k1) ∧
        s1.curr_id = mainBeforeDeleteKey.curr_id ∧
        s1.snapshot_alive = mainBeforeDeleteKey.snapshot_alive) :=
  ⟨rfl, by decide, by decide,
    C12_deleteKey_outcomes (mainCalls.take 12) mainBeforeDeleteKey "a" rfl⟩

/-! ## C13 -/

/-- C13 as stated is false: `put` accepts an absent value, and `put("a", nullopt)` on a fresh
store succeeds and leaves the tombstone `(0, none)` at the tail of the chain of `a`, not a
present value. -/
theorem C13_as_stated_fails :
    ¬ (∀ (ops : List Op) (s : KVSnapshots) (k : String) (value : Option String),
        run ops = some s → k ≠ "" →
        ∃ s1 arr v, put s k value = some (.ok (), s1) ∧ s1.db k = some arr ∧
          arr.getLast? = some (s.curr_id, some v)) := by
  intro h
  obtain ⟨s1, arr, v, h1, h2, h3⟩ := h [] fresh "a" none rfl (by decide)
  rw [put_eq fresh "a" none inv_fresh, if_neg (by decide)] at h1
  simp only [Option.some.injEq, Prod.mk.injEq, true_and] at h1
  subst h1
  obtain ⟨arr1, e1, e2⟩ := written_tail fresh "a" none
  rw [h2] at e1
  cases e1
  rw [h3] at e2
  cases e2

/-- C13, amended: in a reachable state `put(k, value)` is defined for every key and every value
argument, present or absent; it fails with InvalidKey exactly when `k` is empty (as
`put("", "x")` does) and otherwise succeeds, and then the tail entry of the chain of `k` is
`(curr_id, value)` with the value as passed (present for a string, a tombstone for `nullopt`)
while the chains of all other keys, `curr_id` and the liveness table are unchanged. -/
theorem C13_put_outcomes (ops : List Op) (s : KVSnapshots) (k : String)
    (value : Option String) (hrun : run ops = some s) :
    ∃ r s1, put s k value = some (r, s1) ∧
      (r = .error InvalidKey ↔ k = "") ∧
      (k ≠ "" →
        r = .ok () ∧
        (∃ arr, s1.db k = some arr ∧ arr.getLast? = some (s.curr_id, value)) ∧
        (∀ k1, k1 ≠ k → s1.db k1 = s.db k1) ∧
        s1.curr_id = s.curr_id ∧ s1.snapshot_alive = s.snapshot_alive) ∧
      put s "" (some "x") = some (.error InvalidKey, s) := by
  have hi := run_inv hrun
  rw [put_eq s k value hi]
  by_cases hk : k = ""
  · exact ⟨_, s, if_pos hk, by simp [hk], fun h => absurd hk h, rfl⟩
  · refine ⟨_, written s k value, if_neg hk, ?_, ?_, rfl⟩
    · constructor
      · intro h; cases h
      · intro h; exact absurd h hk
    · intro _
      obtain ⟨f1, f2, f3⟩ := written_frame s k value
      exact ⟨rfl, written_tail s k value, f1, f2, f3⟩

/-- C13, instance: after `put("a", "x")` on a fresh store, `put("a", "y")` succeeds and the chain
of `a` is the single entry `(0, "y")`. -/
theorem C13_put_outcomes_witness :
    run [.put "a" (some "x")] = some putState ∧
    (stateOf (put putState "a" (some "y"))).db "a" = some [(0, some "y")] ∧
    ∃ r s1, put putState "a" (some "y") = some (r, s1) ∧
      (r = .error InvalidKey ↔ "a" = "") ∧
      ("a" ≠ "" →
        r = .ok () ∧
        (∃ arr, s1.db "a" = some arr ∧ arr.getLast? = some (putState.curr_id, some "y")) ∧
        (∀ k1, k1 ≠ "a" → s1.db k1 = putState.db k1) ∧
        s1.curr_id = putState.curr_id ∧ s1.snapshot_alive = putState.snapshot_alive) ∧
      put putState "" (some "x") = some (.error InvalidKey, putState) :=
  ⟨rfl, by decide, C13_put_outcomes [.put "a" (some "x")] putState "a" (some "y") rfl⟩

/-! ## C14 -/

/-- C14: every call sequence on a fresh store (`put`, `deleteKey`, `get`, `takeSnapshot`,
`deleteSnapshot`) is defined and reaches a state in which every chain is strictly increasing by
epoch, no two entries of a chain share an epoch, and every epoch is `≤ curr_id`. -/
theorem C14_chain_invariant (ops : List Op) :
    ∃ s, run ops = some s ∧ ∀ k arr, s.db k = some arr →
      arr.Pairwise (fun a b => a.1 < b.1) ∧ (arr.map Prod.fst).Nodup ∧
      ∀ e ∈ arr, e.1 ≤ s.curr_id := by
  obtain ⟨s, hrun, hi⟩ := run_total ops
  refine ⟨s, hrun, ?_⟩
  intro k arr hk
  have hasc : arr.Pairwise (fun a b => a.1 < b.1) := hi.chain_asc k arr hk
  refine ⟨hasc, ?_, hi.chain_le k arr hk⟩
  rw [List.Nodup, List.pairwise_map]
  exact hasc.imp (fun h => ne_of_lt h)

/-! ## C15 -/

theorem writeChain_shape (arr : Chain) (E : Int) (v : Option String) :
    writeChain (some arr) E v = arr ++ [(E, v)] ∨
      ∃ pre old, arr = pre ++ [(E, old)] ∧ writeChain (some arr) E v = pre ++ [(E, v)] := by
  unfold writeChain
  dsimp only
  split
  next h =>
    right
    cases hl : arr.getLast? with
    | none => simp [hl] at h
    | some last =>
      have hlast : last.1 = E := by simpa [hl] using h
      have harr : arr.dropLast ++ [last] = arr := List.dropLast_append_getLast? last hl
      refine ⟨arr.dropLast, last.2, ?_, rfl⟩
      rw [← hlast]
      exact harr.symm
  next h => left; rfl

/-- What a write does to the chain already stored under the written key. -/
theorem written_history (s : KVSnapshots) (key : String) (value : Option String) (k : String)
    (arr : Chain) (hk : s.db k = some arr) :
    ∃ arr1, (written s key value).db k = some arr1 ∧
      below arr1 s.curr_id = below arr s.curr_id ∧ arr.length ≤ arr1.length ∧
      (arr1 = arr ∨ (∃ v, arr1 = arr ++ [(s.curr_id, v)]) ∨
        ∃ pre old v, arr = pre ++ [(s.curr_id, old)] ∧ arr1 = pre ++ [(s.curr_id, v)]) := by
  by_cases hkk : k = key
  · subst hkk
    refine ⟨writeChain (some arr) s.curr_id value, by simp [written, hk], ?_, ?_, ?_⟩
    · unfold below
      apply writeChain_filter
      intro e he
      simp only [decide_eq_false_iff_not]; omega
    · rcases writeChain_shape arr s.curr_id value with h | ⟨pre, old, h1, h2⟩
      · rw [h]; simp
      · rw [h2]; rw [h1]; simp
    · rcases writeChain_shape arr s.curr_id value with h | ⟨pre, old, h1, h2⟩
      · right; left; exact ⟨value, h⟩
      · right; right; exact ⟨pre, old, value, h1, h2⟩
  · exact ⟨arr, by simp [written, Function.update_noteq hkk, hk], rfl, le_refl _, Or.inl rfl⟩

theorem same_history (s s1 : KVSnapshots) (hdb : s1.db = s.db) (k : String) (arr : Chain)
    (hk : s.db k = some arr) :
    ∃ arr1, s1.db k = some arr1 ∧
      below arr1 s.curr_id = below arr s.curr_id ∧ arr.length ≤ arr1.length ∧
      (arr1 = arr ∨ (∃ v, arr1 = arr ++ [(s.curr_id, v)]) ∨
        ∃ pre old v, arr = pre ++ [(s.curr_id, old)] ∧ arr1 = pre ++ [(s.curr_id, v)]) :=
  ⟨arr, by rw [hdb, hk], rfl, le_refl _, Or.inl rfl⟩

theorem written_new_key (s : KVSnapshots) (key : String) (value : Option String) (k : String)
    (hk : s.db k = none) (hk1 : (written s key value).db k ≠ none) : k = key := by
  by_contra hne
  apply hk1
  simp only [written, Function.update_noteq hne, hk]

theorem written_keeps_keys (s : KVSnapshots) (key : String) (value : Option String)
    (k : String) (hk : s.db k ≠ none) : (written s key value).db k ≠ none := by
  by_cases hkk : k = key
  · subst hkk; simp [written]
  · simpa [written, Function.update_noteq hkk] using hk

/-! ## C16 -/

/-- C16: in a reachable state every call is defined and (1) keeps every existing key; (2) adds
a key only when it is a successful `put` on that key; (3) for each existing key leaves the
entries with epoch below `curr_id` as they were and removes no entry: the chain stays the same,
or gets one new entry `(curr_id, v)` at its tail, or has its tail entry, which carries
`curr_id`, overwritten by `(curr_id, v)`. -/
theorem C16_history_frozen (ops : List Op) (s : KVSnapshots) (op : Op)
    (hrun : run ops = some s) :
    ∃ r s1, call s op = some (r, s1) ∧
      (∀ k, s.db k ≠ none → s1.db k ≠ none) ∧
      (∀ k, s.db k = none → s1.db k ≠ none → r = .ok .unit ∧ ∃ v, op = .put k v) ∧
      (∀ k arr, s.db k = some arr →
        ∃ arr1, s1.db k = some arr1 ∧
          below arr1 s.curr_id = below arr s.curr_id ∧ arr.length ≤ arr1.length ∧
          (arr1 = arr ∨ (∃ v, arr1 = arr ++ [(s.curr_id, v)]) ∨
            ∃ pre old v, arr = pre ++ [(s.curr_id, old)] ∧ arr1 = pre ++ [(s.curr_id, v)])) := by
  have hi := run_inv hrun
  have hsame : ∀ (r : Except Exn Ret) (s1 : KVSnapshots), call s op = some (r, s1) →
      s1.db = s.db →
      ∃ r s1, call s op = some (r, s1) ∧
      (∀ k, s.db k ≠ none → s1.db k ≠ none) ∧
      (∀ k, s.db k = none → s1.db k ≠ none → r = .ok .unit ∧ ∃ v, op = .put k v) ∧
      (∀ k arr, s.db k = some arr →
        ∃ arr1, s1.db k = some arr1 ∧
          below arr1 s.curr_id = below arr s.curr_id ∧ arr.length ≤ arr1.length ∧
          (arr1 = arr ∨ (∃ v, arr1 = arr ++ [(s.curr_id, v)]) ∨
            ∃ pre old v, arr = pre ++ [(s.curr_id, old)] ∧ arr1 = pre ++ [(s.curr_id, v)])) := by
    intro r s1 hc hdb
    refine ⟨r, s1, hc, ?_, ?_, ?_⟩
    · intro k hk; rw [hdb]; exact hk
    · intro k hk hk1; rw [hdb] at hk1; exact absurd hk hk1
    · intro k arr hk; exact same_history s s1 hdb k arr hk
  cases op with
  | put k1 v =>
    by_cases hk1 : k1 = ""
    · exact hsame _ s (by rw [call_put s k1 v hi, if_pos hk1]) rfl
    · refine ⟨.ok .unit, written s k1 v, by rw [call_put s k1 v hi, if_neg hk1], ?_, ?_, ?_⟩
      · intro k hk; exact written_keeps_keys s k1 v k hk
      · intro k hk hk2
        have := written_new_key s k1 v k hk hk2
        subst this
        exact ⟨rfl, v, rfl⟩
      · intro k arr hk; exact written_history s k1 v k arr hk
  | deleteKey k1 =>
    by_cases hk1 : k1 = ""
    · exact hsame _ s (by rw [call_deleteKey s k1 hi, if_pos hk1]) rfl
    · by_cases hn : (s.db k1).isNone = true
      · exact hsame _ s (by rw [call_deleteKey s k1 hi, if_neg hk1, if_pos hn]) rfl
      · refine ⟨.ok .unit, written s k1 none,
          by rw [call_deleteKey s k1 hi, if_neg hk1, if_neg hn], ?_, ?_, ?_⟩
        · intro k hk; exact written_keeps_keys s k1 none k hk
        · intro k hk hk2
          have := written_new_key s k1 none k hk hk2
          subst this
          rw [hk] at hn
          exact absurd rfl hn
        · intro k arr hk; exact written_history s k1 none k arr hk
  | deleteSnapshot i =>
    by_cases hr : i < 0 ∨ s.curr_id ≤ i
    · exact hsame _ s (by rw [call_deleteSnapshot s i hi, if_pos hr]) rfl
    · by_cases hl : live s i
      · exact hsame _ (unalive s i)
          (by rw [call_deleteSnapshot s i hi, if_neg hr, if_pos hl]) rfl
      · exact hsame _ s (by rw [call_deleteSnapshot s i hi, if_neg hr, if_neg hl]) rfl
  | get k1 i =>
    obtain ⟨r, hr⟩ := call_get s k1 i hi
    exact hsame r s hr rfl
  | takeSnapshot =>
    by_cases hmax : s.curr_id = INT_MAX
    · exact hsame _ s (call_takeSnapshot_max s hi hmax) rfl
    · exact hsame _ (snapped s) (call_takeSnapshot s hi hmax) rfl

/-- C16, instance: in `main`, before the first `deleteKey`, the chain of `a` has no entry at
epoch 3 yet; `put("a", "again")` appends `(3, "again")` and the three older entries stay as they
were. -/
theorem C16_history_frozen_witness :
    run (mainCalls.take 12) = some mainBeforeDeleteKey ∧
    mainBeforeDeleteKey.db "a" = some [(0, some "apple"), (1, some "ant"), (2, some "artistic")] ∧
    (stateOf (call mainBeforeDeleteKey (.put "a" (some "again")))).db "a"
      = some [(0, some "apple"), (1, some "ant"), (2, some "artistic"), (3, some "again")] ∧
    ∃ r s1, call mainBeforeDeleteKey (.put "a" (some "again")) = some (r, s1) ∧
      (∀ k, mainBeforeDeleteKey.db k ≠ none → s1.db k ≠ none) ∧
      (∀ k, mainBeforeDeleteKey.db k = none → s1.db k ≠ none →
        r = .ok .unit ∧ ∃ v, Op.put "a" (some "again") = .put k v) ∧
      (∀ k arr, mainBeforeDeleteKey.db k = some arr →
        ∃ arr1, s1.db k = some arr1 ∧
          below arr1 mainBeforeDeleteKey.curr_id = below arr mainBeforeDeleteKey.curr_id ∧
          arr.length ≤ arr1.length ∧
          (arr1 = arr ∨ (∃ v, arr1 = arr ++ [(mainBeforeDeleteKey.curr_id, v)]) ∨
            ∃ pre old v, arr = pre ++ [(mainBeforeDeleteKey.curr_id, old)] ∧
              arr1 = pre ++ [(mainBeforeDeleteKey.curr_id, v)])) :=
  ⟨rfl, by decide, by decide,
    C16_history_frozen (mainCalls.take 12) mainBeforeDeleteKey (.put "a" (some "again")) rfl⟩

/-! ## C18 -/

/-- C18: every call sequence on a fresh store is defined and reaches a state whose liveness
table has exactly `curr_id` entries and whose chains are all non-empty; in that state, for every
input, `snapshot_alive[snapshotID]` after a successful `valid_snapshotID`, `db[key].back()` in
`add_to_db`, and `arr[index]` in `get` are in bounds, so that `add_to_db`, `find`, `get` and
every call are defined. -/
theorem C18_bounds_safety (ops : List Op) :
    ∃ s, run ops = some s ∧
      (s.snapshot_alive.length : Int) = s.curr_id ∧
      (∀ k arr, s.db k = some arr → arr ≠ []) ∧
      (∀ id, valid_snapshotID s id = true → ∃ b, idx s.snapshot_alive id = some b) ∧
      (∀ key value, ∃ s1, add_to_db s key value = some s1) ∧
      (∀ key arr, s.db key = some arr → ∃ last, arr.getLast? = some last) ∧
      (∀ key arr id, s.db key = some arr →
        ∃ index, find arr id = some index ∧ (index ≠ -1 → ∃ e, idx arr index = some e)) ∧
      (∀ key id, ∃ r s1, get s key id = some (r, s1)) ∧
      (∀ op, ∃ r s1, call s op = some (r, s1)) := by
  obtain ⟨s, hrun, hi⟩ := run_total ops
  refine ⟨s, hrun, hi.alive_len, hi.chain_ne, ?_, ?_, ?_, ?_, ?_, ?_⟩
  · intro id hv
    have hlen := hi.alive_len
    simp only [valid_snapshotID, ge_iff_le, ite_eq_right_iff, Bool.false_eq_true, imp_false,
      not_or, not_lt, not_le] at hv
    obtain ⟨b, hb, -⟩ := idx_of_lt s.snapshot_alive id hv.1 hv.2.2
    exact ⟨b, hb⟩
  · intro key value
    exact ⟨_, add_to_db_written s key value (hi.chain_ne key)⟩
  · intro key arr hk
    cases hl : arr.getLast? with
    | none => exact absurd (List.getLast?_eq_none_iff.1 hl) (hi.chain_ne key arr hk)
    | some last => exact ⟨last, rfl⟩
  · intro key arr id hk
    obtain ⟨r, hr, h1, h2, -, -⟩ := find_spec arr id (hi.chain_asc key arr hk)
    refine ⟨r, hr, ?_⟩
    intro hne
    obtain ⟨e, he, -⟩ := idx_of_lt arr r (by omega) h2
    exact ⟨e, he⟩
  · intro key id
    rw [get_eq s key id hi]
    split
    · exact ⟨_, _, rfl⟩
    split
    · exact ⟨_, _, rfl⟩
    split <;> exact ⟨_, _, rfl⟩
  · intro op
    obtain ⟨s1, hstep, -⟩ := step_inv s op hi
    obtain ⟨r, hc⟩ := step_of_call hstep
    exact ⟨r, s1, hc⟩

/-! ## C19 -/

/-- C19: in a reachable state `get` is defined for every key and id and, whether it returns a
value or fails, leaves the whole state as it was (no key and no empty chain is inserted); a
second `get` with the same arguments therefore gives the same outcome. -/
theorem C19_get_read_only (ops : List Op) (s : KVSnapshots) (key : String) (id : Int)
    (hrun : run ops = some s) :
    ∃ r, get s key id = some (r, s) ∧
      (∀ r1 s1, get s key id = some (r1, s1) → s1 = s ∧ get s1 key id = some (r1, s1)) := by
  have hi := run_inv hrun
  obtain ⟨s1, hstep, -⟩ := step_inv s (.get key id) hi
  cases hg : get s key id with
  | none => simp [step, call, hg] at hstep
  | some p =>
    obtain ⟨r, s2⟩ := p
    have hs := get_state s key id r s2 hg
    subst hs
    refine ⟨r, rfl, ?_⟩
    intro r1 s3 h
    simp only [Option.some.injEq, Prod.mk.injEq] at h
    obtain ⟨h1, h2⟩ := h
    subst h1 h2
    exact ⟨rfl, hg⟩

/-- C19, instance: after `main`, `get("zz", 0)` fails with KeyNotFound and leaves the state as it
was: the key `zz` is still absent. -/
theorem C19_get_read_only_witness :
    run mainCalls = some mainState ∧
    get mainState "zz" 0 = some (.error KeyNotFound, mainState) ∧
    mainState.db "zz" = none ∧
    ∃ r, get mainState "zz" 0 = some (r, mainState) ∧
      (∀ r1 s1, get mainState "zz" 0 = some (r1, s1) →
        s1 = mainState ∧ get s1 "zz" 0 = some (r1, s1)) :=
  ⟨rfl, rfl, by decide, C19_get_read_only mainCalls mainState "zz" 0 rfl⟩

end SnapshotKV

namespace Ping

open SnapshotKV (idx idx_of_lt idx_eq_some wrap32 INT_MAX wrap32_of_range)

/-! ## Sets, counts and the helper loops -/

/-- Whenever it is defined, `expireUpto(t)` leaves `lastTime = t`, also when `t` is earlier than
the previous `lastTime`. -/
theorem expireUpto_lastTime (p p1 : PingWindow) (t : Int) (h : expireUpto p t = some p1) :
    p1.lastTime = t := by
  unfold expireUpto at h
  split at h
  · split at h
    · cases h
    · simp only [Option.some.injEq] at h
      rw [← h]
  · simp only at h
    cases hl : expireLoop t (t - wrap32 (p.lastTime + 1) + 1).toNat p
        (wrap32 (p.lastTime + 1)) with
    | none => simp [hl] at h
    | some q =>
      simp only [hl, Option.map_some', Option.some.injEq] at h
      rw [← h]

/-- The sibling path: `ingest` clamps its time, so it never lowers `lastTime`. -/
theorem ingest_lastTime_mono (p p1 : PingWindow) (time node : Int)
    (h : ingest p time node = some p1) : p.lastTime ≤ p1.lastTime := by
  unfold ingest at h
  simp only at h
  cases he : expireUpto p (if time < p.lastTime then p.lastTime else time) with
  | none => simp [he] at h
  | some q =>
    have hq := expireUpto_lastTime p q _ he
    simp only [he] at h
    split at h
    · cases h
    · split at h
      · cases h
      · simp only [Option.some.injEq] at h
        have : p1.lastTime = q.lastTime := by
          rw [← h]
          split <;> rfl
        rw [this, hq]
        split <;> omega

/-- `query(t)` leaves `lastTime = t` whatever `t` is. -/
theorem query_lastTime (p p1 : PingWindow) (t : Int) (r : List Int)
    (h : query p t = some (r, p1)) : p1.lastTime = t := by
  unfold query at h
  cases he : expireUpto p t with
  | none => simp [he] at h
  | some q =>
    simp only [he, Option.map_some', Option.some.injEq, Prod.mk.injEq] at h
    rw [← h.2]
    exact expireUpto_lastTime p q t he

/-! ## C17 -/

/-- C20 fails on the code: on `PingWindow(1, 1)` the calls `query(5); query(3)` leave
`lastTime = 5` and then `lastTime = 3`, so `lastTime` decreases; `query` lacks the clamp that
`ingest` applies to its time. -/
theorem C20_query_lowers_lastTime :
    ((new 1 1).bind fun p => lastTimes p [.query 5, .query 3]) = some [5, 3] := by
  decide

end Ping
